import Mathlib

set_option maxRecDepth 8000

namespace Swasthya

/-- Characters of a Python `str`, modelled as a list of `Char`. -/
abbrev Str := List Char

/-- Whitespace characters recognised by Python `\s` and `str.strip` (ASCII range). -/
def wsChar (c : Char) : Bool :=
  c = ' ' || c = '\t' || c = '\n' || c = '\r' || c = '\x0b' || c = '\x0c'

/-- Negation of `wsChar`, used for tokenisation. -/
def notWs (c : Char) : Bool := !wsChar c

/-- Python `str.lstrip()` (leading whitespace removed). -/
def lstrip (s : Str) : Str := s.dropWhile wsChar

/-- Python `str.rstrip()` (trailing whitespace removed). -/
def rstrip (s : Str) : Str := (s.reverse.dropWhile wsChar).reverse

/-- Python `str.strip()`. -/
def strip (s : Str) : Str := lstrip (rstrip s)

/-- Shared shape of the two normalisation substitutions in `preprocessing.normalize_text`:
`re.sub(r'\s+', ' ', text)` is `collapse wsChar ' '` and `re.sub(r'\.{2,}', '.', text)` is
`collapse dotChar '.'` — every maximal run of `p`-characters is replaced by the single
character `c`. -/
def collapse (p : Char → Bool) (c : Char) : Str → Str
  | [] => []
  | [a] => [if p a then c else a]
  | a :: b :: t =>
    if p a && p b then collapse p c (b :: t)
    else (if p a then c else a) :: collapse p c (b :: t)

/-- The character `.` as a predicate. -/
def dotChar (c : Char) : Bool := c = '.'

/-- `preprocessing.normalize_text`: collapse whitespace runs to a single space, collapse runs
of two or more periods to one period, then strip both ends. -/
def normalize_text (s : Str) : Str := strip (collapse dotChar '.' (collapse wsChar ' ' s))

/-- Python `text.split('\n')` (keeps empty fields, `''.split('\n') == ['']`). -/
def splitNl : Str → List Str
  | [] => [[]]
  | c :: cs =>
    if c = '\n' then [] :: splitNl cs
    else
      match splitNl cs with
      | [] => [[c]]
      | t :: ts => (c :: t) :: ts

/-- Python `s.startswith(pat)`. -/
def begins : Str → Str → Bool
  | [], _ => true
  | _ :: _, [] => false
  | x :: xs, y :: ys => x = y && begins xs ys

/-- Python substring test `pat in s`. -/
def occurs (pat : Str) : Str → Bool
  | [] => begins pat []
  | c :: cs => begins pat (c :: cs) || occurs pat cs

/-- Fuel-driven worker for `delAll`; the fuel only serves to make the recursion structural,
`delAll` always supplies enough of it. -/
def delAllF (pat : Str) : Nat → Str → Str
  | _, [] => []
  | 0, s => s
  | fuel + 1, c :: cs =>
    if !pat.isEmpty && begins pat (c :: cs) then delAllF pat fuel ((c :: cs).drop pat.length)
    else c :: delAllF pat fuel cs

/-- Python `s.replace(pat, '')`: delete every occurrence of `pat`, scanning left to right
(for the nonempty patterns this model is used with). -/
def delAll (pat s : Str) : Str := delAllF pat s.length s

/-- String literal to `Str`. -/
def lit (s : String) : Str := s.toList

/-- The line prefix for doctor utterances. -/
def doctorTag : Str := lit ("Doctor:")

/-- The line prefix for patient utterances. -/
def patientTag : Str := lit ("Patient:")

/-- Accumulators of the loop in `preprocessing.segment_conversation`:
`doctor_lines`, `patient_lines`, `all_lines`. -/
structure SegAcc where
  ds : List Str
  ps : List Str
  alls : List Str
deriving DecidableEq

/-- Python `lines[-1] += ' ' + l` on a list of utterances. -/
def appendLast (l : Str) : List Str → List Str
  | [] => []
  | [x] => [x ++ ' ' :: l]
  | x :: y :: xs => x :: appendLast l (y :: xs)

/-- One iteration of the line loop of `preprocessing.segment_conversation`. -/
def segStep (acc : SegAcc) (rawLine : Str) : SegAcc :=
  let line := strip rawLine
  if line = [] then acc
  else if begins doctorTag line then
    let t := strip (delAll doctorTag line)
    ⟨acc.ds ++ [t], acc.ps, acc.alls ++ [t]⟩
  else if begins patientTag line then
    let t := strip (delAll patientTag line)
    ⟨acc.ds, acc.ps ++ [t], acc.alls ++ [t]⟩
  else
    let acc2 : SegAcc :=
      if acc.ds ≠ [] ∧ acc.ds.length > acc.ps.length then ⟨appendLast line acc.ds, acc.ps, acc.alls⟩
      else if acc.ps ≠ [] then ⟨acc.ds, appendLast line acc.ps, acc.alls⟩
      else acc
    ⟨acc2.ds, acc2.ps, acc2.alls ++ [line]⟩

/-- Python `' '.join(xs)`. -/
def joinSp : List Str → Str
  | [] => []
  | [x] => x
  | x :: y :: xs => x ++ ' ' :: joinSp (y :: xs)

/-- The record returned by `preprocessing.segment_conversation`. -/
structure ConversationText where
  doctor_text : Str
  patient_text : Str
  full_text : Str
deriving DecidableEq

/-- `preprocessing.segment_conversation`. -/
def segment_conversation (text : Str) : ConversationText :=
  let acc := (splitNl text).foldl segStep ⟨[], [], []⟩
  ⟨normalize_text (joinSp acc.ds), normalize_text (joinSp acc.ps),
    normalize_text (joinSp acc.alls)⟩

/-- Python `str.lower()` (ASCII as used by the keyword sets). -/
def toLowerStr (s : Str) : Str := s.map Char.toLower

/-- `sentiment_intent.SENTIMENT_CATEGORIES`. -/
def SENTIMENT_CATEGORIES : List Str := [lit ("Anxious"), lit ("Neutral"), lit ("Reassured")]

/-- `sentiment_intent.INTENT_CATEGORIES`. -/
def INTENT_CATEGORIES : List Str :=
  [lit ("Reporting symptoms"), lit ("Seeking reassurance"), lit ("Confirming recovery"),
   lit ("Asking questions"), lit ("Describing condition")]

/-- `sentiment_intent.ANXIOUS_KEYWORDS`. -/
def ANXIOUS_KEYWORDS : List Str :=
  [lit ("worried"), lit ("concerned"), lit ("anxious"), lit ("nervous"), lit ("afraid"),
   lit ("fear"), lit ("scared"), lit ("uncertain"), lit ("doubt"), lit ("apprehensive"),
   lit ("stress"), lit ("panic")]

/-- `sentiment_intent.REASSURED_KEYWORDS`. -/
def REASSURED_KEYWORDS : List Str :=
  [lit ("better"), lit ("improved"), lit ("reassuring"), lit ("confident"), lit ("relieved"),
   lit ("grateful"), lit ("thankful"), lit ("appreciate"), lit ("hopeful"), lit ("optimistic"),
   lit ("positive"), lit ("good news")]

/-- `sentiment_intent.SYMPTOM_REPORTING_KEYWORDS`. -/
def SYMPTOM_REPORTING_KEYWORDS : List Str :=
  [lit ("pain"), lit ("ache"), lit ("discomfort"), lit ("feeling"), lit ("experiencing"),
   lit ("symptom"), lit ("problem"), lit ("issue"), lit ("bothering"), lit ("hurting")]

/-- `sentiment_intent.REASSURANCE_SEEKING_KEYWORDS`. -/
def REASSURANCE_SEEKING_KEYWORDS : List Str :=
  [lit ("worried"), lit ("concerned"), lit ("should i"), lit ("is it normal"), lit ("what if"),
   lit ("afraid"), lit ("wondering"), lit ("question"), lit ("doubt")]

/-- `sentiment_intent.RECOVERY_CONFIRMING_KEYWORDS`. -/
def RECOVERY_CONFIRMING_KEYWORDS : List Str :=
  [lit ("better"), lit ("improved"), lit ("recovering"), lit ("healing"), lit ("progress"),
   lit ("feeling good"), lit ("much better"), lit ("doing well"), lit ("getting better")]

/-- `sentiment_intent.analyze_sentiment_rule_based`. -/
def analyze_sentiment_rule_based (text : Str) : Str :=
  let tl := toLowerStr text
  let anxious_score := ANXIOUS_KEYWORDS.countP (fun k => occurs k tl)
  let reassured_score := REASSURED_KEYWORDS.countP (fun k => occurs k tl)
  if anxious_score > reassured_score ∧ anxious_score > 0 then lit ("Anxious")
  else if reassured_score > anxious_score ∧ reassured_score > 0 then lit ("Reassured")
  else lit ("Neutral")

/-- Outcome of a successful call to the external polarity model: its label and whether the
confidence score exceeded 0.7.  The model itself is an external collaborator, so its answer
is a parameter of the embedding. -/
structure PolarityResult where
  label : Str
  confGt : Bool

/-- `sentiment_intent.analyze_sentiment_transformers`: `none` models the transformers
library being unavailable or the model call raising, both of which fall back to the
rule-based path; `some r` models a successful model call. -/
def analyze_sentiment_transformers (svc : Option PolarityResult) (text : Str) : Str :=
  match svc with
  | none => analyze_sentiment_rule_based text
  | some r =>
    if r.label = lit ("POSITIVE") ∧ r.confGt then lit ("Reassured")
    else if r.label = lit ("NEGATIVE") ∧ r.confGt then lit ("Anxious")
    else lit ("Neutral")

/-- `sentiment_intent.analyze_intent_rule_based`.  Python `max(scores, key=scores.get)`
returns the first key of maximal value in dict insertion order, which is the declaration
order symptoms, reassurance, recovery. -/
def analyze_intent_rule_based (text : Str) : Str :=
  let tl := toLowerStr text
  let symptom_score := SYMPTOM_REPORTING_KEYWORDS.countP (fun k => occurs k tl)
  let reassurance_score := REASSURANCE_SEEKING_KEYWORDS.countP (fun k => occurs k tl)
  let recovery_score := RECOVERY_CONFIRMING_KEYWORDS.countP (fun k => occurs k tl)
  let best :=
    if symptom_score ≥ reassurance_score ∧ symptom_score ≥ recovery_score then
      (lit ("Reporting symptoms"), symptom_score)
    else if reassurance_score ≥ recovery_score then
      (lit ("Seeking reassurance"), reassurance_score)
    else (lit ("Confirming recovery"), recovery_score)
  if best.2 > 0 then best.1 else lit ("Describing condition")

/-- `sentiment_intent.analyze_sentiment_intent` on the `patient_text` field (`svc` is the
external polarity model's outcome).  Returns the pair (Sentiment, Intent). -/
def analyze_sentiment_intent (svc : Option PolarityResult) (patient_text : Str) : Str × Str :=
  if patient_text = [] then (lit ("Neutral"), lit ("Describing condition"))
  else (analyze_sentiment_transformers svc patient_text, analyze_intent_rule_based patient_text)

/-- Whitespace-separated tokens of a string (the words of Python `s.split()`), used to state
the token-content properties of segmentation. -/
def tokens : Str → List Str
  | [] => []
  | c :: cs =>
    if wsChar c then tokens cs
    else
      match cs with
      | [] => [[c]]
      | d :: _ =>
        if wsChar d then [c] :: tokens cs
        else
          match tokens cs with
          | [] => [[c]]
          | t :: ts => (c :: t) :: ts

/-- Sentence terminators of `re.split(r'[.!?]+', text)`. -/
def punctChar (c : Char) : Bool := c = '.' || c = '!' || c = '?'

/-- Python `re.split(r'[.!?]+', text)`: fields between maximal runs of `.`, `!`, `?`. -/
def splitPunct : Str → List Str
  | [] => [[]]
  | c :: cs =>
    if punctChar c then
      match cs with
      | [] => [[], []]
      | d :: _ => if punctChar d then splitPunct cs else [] :: splitPunct cs
    else
      match splitPunct cs with
      | [] => [[c]]
      | t :: ts => (c :: t) :: ts

/-- `summarization.summarize_simple`'s medical keyword list. -/
def MEDICAL_KEYWORDS : List Str :=
  [lit ("patient"), lit ("diagnosis"), lit ("treatment"), lit ("symptom"), lit ("pain"),
   lit ("injury"), lit ("recovery"), lit ("therapy"), lit ("medication"), lit ("doctor"),
   lit ("condition")]

/-- The sentence list of `summarize_simple`: split on punctuation runs, strip, keep only
fragments longer than 20 characters. -/
def sentencesOf (text : Str) : List Str :=
  ((splitPunct text).map strip).filter (fun s => 20 < s.length)

/-- Stable insertion into a descending-sorted list: the new element goes after existing
elements of equal key. -/
def insDesc (key : α → Nat) (x : α) : List α → List α
  | [] => [x]
  | y :: ys => if key x ≤ key y then y :: insDesc key x ys else x :: y :: ys

/-- Python's stable `list.sort(reverse=True, key=...)`: descending by key, ties keep
original order. -/
def sortDesc (key : α → Nat) (l : List α) : List α :=
  l.foldl (fun acc x => insDesc key x acc) []

/-- Sentence score of `summarize_simple`: length, +20 per medical keyword present
(per keyword, not per occurrence), +10 for the first or last sentence. -/
def scoreSentence (numS i : Nat) (s : Str) : Nat :=
  let base := MEDICAL_KEYWORDS.foldl
    (fun sc k => if occurs (toLowerStr k) (toLowerStr s) then sc + 20 else sc) s.length
  if i = 0 ∨ i = numS - 1 then base + 10 else base

/-- Python `'. '.join(xs)`. -/
def joinDotSp : List Str → Str
  | [] => []
  | [x] => x
  | x :: y :: xs => x ++ '.' :: ' ' :: joinDotSp (y :: xs)

/-- `summarization.summarize_simple` (the extractive fallback). -/
def summarize_simple (text : Str) (num_sentences : Nat) : Str :=
  let sentences := sentencesOf text
  if sentences.length ≤ num_sentences then joinDotSp sentences ++ ['.']
  else
    let scored_sentences :=
      sentences.enum.map (fun p => (scoreSentence sentences.length p.1 p.2, p.2))
    let sorted := sortDesc (fun q => q.1) scored_sentences
    let top_sentences := (sorted.take num_sentences).map (fun q => q.2)
    let reordered := sentences.filter (fun s => top_sentences.contains s)
    joinDotSp reordered ++ ['.']

/-- Number of distinct medical keywords occurring in a sentence (case-insensitively). -/
def countMedKw (s : Str) : Nat :=
  MEDICAL_KEYWORDS.countP (fun k => occurs (toLowerStr k) (toLowerStr s))

/-- Specification-side sentence score, written as in the amended claim:
length + 20 for each distinct medical keyword occurring in the sentence + 10 position
bonus for the first or last sentence. -/
def scoreSpec (numS i : Nat) (s : Str) : Nat :=
  s.length + 20 * countMedKw s + (if i = 0 ∨ i = numS - 1 then 10 else 0)

/-- Specification-side selection: the top-`k` sentences by score under the stable
descending order (ties by original position). -/
def topSelected (sentences : List Str) (k : Nat) : List Str :=
  ((sortDesc (fun q => q.1)
      (sentences.enum.map (fun p => (scoreSpec sentences.length p.1 p.2, p.2)))).take k).map
    (fun q => q.2)

/-- Specification-side summariser, written as the amended claim reads: keep, in original
order, every sentence whose text equals one of the top-`k` selected sentences, join with
`. ` and a trailing period. -/
def summarizeSpec (text : Str) (k : Nat) : Str :=
  let sentences := sentencesOf text
  joinDotSp (sentences.filter (fun s => (topSelected sentences k).contains s)) ++ ['.']

/-- `keyword_extraction.extract_keywords`'s stop-word set. -/
def STOP_WORDS : List Str :=
  [lit ("the"), lit ("a"), lit ("an"), lit ("and"), lit ("or"), lit ("but"), lit ("in"),
   lit ("on"), lit ("at"), lit ("to"), lit ("for"), lit ("of"), lit ("with"), lit ("by")]

/-- Worker for `dedupFirst`, carrying the set of already-seen strings. -/
def dedupFirstAux (seen : List Str) : List Str → List Str
  | [] => []
  | x :: xs =>
    if seen.contains x then dedupFirstAux seen xs
    else x :: dedupFirstAux (x :: seen) xs

/-- Order-preserving deduplication keeping the first occurrence
(Python `list(dict.fromkeys(xs))`, and the `seen`-set loop of `extract_keywords`). -/
def dedupFirst (l : List Str) : List Str := dedupFirstAux [] l

/-- The items of Python `Counter(l)` in dict insertion order: distinct elements in
first-occurrence order, each with its multiplicity. -/
def counterItems (l : List Str) : List (Str × Nat) :=
  (dedupFirst l).map (fun x => (x, l.count x))

/-- The final unique-take loop of `extract_keywords` (`seen` set, `break` once `top_n`
keywords are collected; the membership test happens before appending, the length test
after). -/
def resultLoop (top_n : Nat) : List Str → List Str → List Str
  | [], res => res
  | kw :: rest, res =>
    if res.contains kw then resultLoop top_n rest res
    else
      let res2 := res ++ [kw]
      if top_n ≤ res2.length then res2 else resultLoop top_n rest res2

/-- `keyword_extraction.extract_keywords`.  `all_keywords` is the concatenation of the
three candidate generators' outputs (KeyBERT, TF-IDF, noun chunks) — all three are
external model services, each contributing `[]` when unavailable or failing, so the merge
is stated for an arbitrary pooled list.  `Counter.most_common(n)` is a stable descending
sort by count (ties in dict insertion order) truncated to `n`. -/
def extract_keywords (all_keywords : List Str) (top_n : Nat) : List Str :=
  let keyword_counts := counterItems (all_keywords.map toLowerStr)
  let filtered_keywords :=
    (((sortDesc (fun q => q.2) keyword_counts).take (top_n * 2)).map (fun q => q.1)).filter
      (fun kw => !STOP_WORDS.contains kw && 2 < kw.length)
  resultLoop top_n filtered_keywords []

/-- `ner_extraction.SYMPTOM_KEYWORDS`. -/
def SYMPTOM_KEYWORDS : List Str :=
  [lit ("pain"), lit ("ache"), lit ("discomfort"), lit ("sore"), lit ("tender"),
   lit ("stiff"), lit ("numb"), lit ("tingling"), lit ("headache"), lit ("dizziness"),
   lit ("nausea"), lit ("vomiting"), lit ("fever"), lit ("fatigue"), lit ("weakness"),
   lit ("swelling"), lit ("inflammation"), lit ("rash"), lit ("itch")]

/-- `ner_extraction.DIAGNOSIS_KEYWORDS`. -/
def DIAGNOSIS_KEYWORDS : List Str :=
  [lit ("diagnosis"), lit ("diagnosed"), lit ("condition"), lit ("disease"),
   lit ("disorder"), lit ("syndrome"), lit ("injury"), lit ("fracture"), lit ("infection"),
   lit ("inflammation"), lit ("chronic"), lit ("acute")]

/-- `ner_extraction.TREATMENT_KEYWORDS`. -/
def TREATMENT_KEYWORDS : List Str :=
  [lit ("treatment"), lit ("therapy"), lit ("medication"), lit ("medicine"), lit ("drug"),
   lit ("prescription"), lit ("physiotherapy"), lit ("surgery"), lit ("operation"),
   lit ("procedure"), lit ("exercise"), lit ("painkiller"), lit ("antibiotic"),
   lit ("dose"), lit ("session"), lit ("appointment")]

/-- `ner_extraction.PROGNOSIS_KEYWORDS`. -/
def PROGNOSIS_KEYWORDS : List Str :=
  [lit ("recovery"), lit ("prognosis"), lit ("outcome"), lit ("heal"), lit ("improve"),
   lit ("better"), lit ("recover"), lit ("expected"), lit ("timeline"), lit ("months"),
   lit ("weeks"), lit ("days")]

/-- The chunks scanned by `re.findall(r'[^.]*kw[^.]*\.?', text)`: each maximal dot-free
run of the text with its following period attached when present.  A chunk produces at most
one (whole-chunk) match, namely when it contains the keyword. -/
def dotSegs : Str → List Str
  | [] => [[]]
  | c :: cs =>
    if c = '.' then ['.'] :: dotSegs cs
    else
      match dotSegs cs with
      | [] => [[c]]
      | t :: ts => (c :: t) :: ts

/-- `ner_extraction.extract_by_keywords`: for each keyword, collect the (case-insensitive)
keyword-containing chunks, strip them, keep lengths strictly between 10 and 200, and cap
the pooled result at 10 phrases. -/
def extract_by_keywords (text : Str) (keywords : List Str) : List Str :=
  (keywords.flatMap (fun kw =>
    ((dotSegs text).filter (fun seg => occurs (toLowerStr kw) (toLowerStr seg))).filterMap
      (fun m =>
        let cleaned := strip m
        if 10 < cleaned.length ∧ cleaned.length < 200 then some cleaned else none))).take 10

/-- The four entity categories of `ner_extraction`. -/
structure EntityBag where
  Symptoms : List Str
  Diagnosis : List Str
  Treatment : List Str
  Prognosis : List Str
deriving DecidableEq

/-- Python's `list(set(xs))` iterates a hash set in an unspecified (hash-seed dependent)
order; the embedding takes that order as a function parameter.  A valid instantiation
returns, for every input, a duplicate-free list with exactly the input's elements. -/
def SetSemantics (reorder : List Str → List Str) : Prop :=
  ∀ xs, (reorder xs).Nodup ∧ ∀ a, a ∈ reorder xs ↔ a ∈ xs

/-- The per-category merge of `ner_extraction.extract_medical_entities` (lines 106-117):
`list(set(ner + kw))`, then strip each item dropping empties, then
`list(dict.fromkeys(...))`. -/
def mergeCategory (reorder : List Str → List Str) (ner kw : List Str) : List Str :=
  dedupFirst (((reorder (ner ++ kw)).map strip).filter (fun s => !s.isEmpty))

/-- `ner_extraction.extract_medical_entities`.  `nerBag` carries the per-category entity
lists that the classification loop accumulates from the external spaCy model's `doc.ents`
(an external collaborator), `reorder` the iteration order of Python `set`. -/
def extract_medical_entities (reorder : List Str → List Str) (nerBag : EntityBag)
    (text : Str) : EntityBag :=
  ⟨mergeCategory reorder nerBag.Symptoms (extract_by_keywords text SYMPTOM_KEYWORDS),
   mergeCategory reorder nerBag.Diagnosis (extract_by_keywords text DIAGNOSIS_KEYWORDS),
   mergeCategory reorder nerBag.Treatment (extract_by_keywords text TREATMENT_KEYWORDS),
   mergeCategory reorder nerBag.Prognosis (extract_by_keywords text PROGNOSIS_KEYWORDS)⟩

/-- The merge as the specification words it: concatenate the two sources, trim, drop
empties, deduplicate preserving first-seen order. -/
def mergeFirstSeen (ner kw : List Str) : List Str :=
  dedupFirst (((ner ++ kw).map strip).filter (fun s => !s.isEmpty))

/-- Uppercase letter of the name patterns (`[A-Z]`). -/
def upperChar (c : Char) : Bool := 'A' ≤ c && c ≤ 'Z'

/-- Lowercase letter of the name patterns (`[a-z]`). -/
def lowerChar (c : Char) : Bool := 'a' ≤ c && c ≤ 'z'

/-- Greedy `[A-Z][a-z]+` at the start of `s`: the matched word and the rest. -/
def matchName : Str → Option (Str × Str)
  | [] => none
  | c :: cs =>
    if upperChar c then
      let ls := cs.takeWhile lowerChar
      if ls.isEmpty then none else some (c :: ls, cs.dropWhile lowerChar)
    else none

/-- Greedy `[A-Z][a-z]+(?:\s+[A-Z][a-z]+)?` at the start of `s` with nothing after it
(pattern 1's capture group): one word, extended by a second capitalised word when present. -/
def nameGroupAt (s : Str) : Option Str :=
  match matchName s with
  | none => none
  | some (w1, r1) =>
    let ws1 := r1.takeWhile wsChar
    if ws1.isEmpty then some w1
    else
      match matchName (r1.dropWhile wsChar) with
      | none => some w1
      | some (w2, _) => some (w1 ++ ws1 ++ w2)

/-- Match of `Patient:\s*([A-Z][a-z]+(?:\s+[A-Z][a-z]+)?)` anchored at the start of `s`,
returning group 1. -/
def p1At (s : Str) : Option Str :=
  if begins patientTag s then nameGroupAt ((s.drop patientTag.length).dropWhile wsChar)
  else none

/-- `re.search` of pattern 1: try each start position left to right. -/
def searchP1 : Str → Option Str
  | [] => none
  | c :: cs =>
    match p1At (c :: cs) with
    | some r => some r
    | none => searchP1 cs

/-- Match of `,?\s+(?:how|feeling|doing)` anchored at the start of `s`. -/
def kwTail (s : Str) : Bool :=
  let s1 := match s with
            | ',' :: r => r
            | _ => s
  match s1 with
  | [] => false
  | c :: _ =>
    wsChar c &&
      (let r := s1.dropWhile wsChar
       begins (lit ("how")) r || begins (lit ("feeling")) r || begins (lit ("doing")) r)

/-- Match of `([A-Z][a-z]+(?:\s+[A-Z][a-z]+)?),?\s+(?:how|feeling|doing)` anchored at the
start of `s`, returning group 1; the optional second name word is tried greedily first and
dropped on failure of the tail, as the regex engine backtracks. -/
def p2At (s : Str) : Option Str :=
  match matchName s with
  | none => none
  | some (w1, r1) =>
    let ws1 := r1.takeWhile wsChar
    let withSecond :=
      if ws1.isEmpty then none
      else
        match matchName (r1.dropWhile wsChar) with
        | none => none
        | some (w2, r3) => if kwTail r3 then some (w1 ++ ws1 ++ w2) else none
    match withSecond with
    | some cap => some cap
    | none => if kwTail r1 then some w1 else none

/-- `re.search` of pattern 2: try each start position left to right. -/
def searchP2 : Str → Option Str
  | [] => none
  | c :: cs =>
    match p2At (c :: cs) with
    | some r => some r
    | none => searchP2 cs

/-- `pipeline.extract_patient_name` (identical to `soap_generator.extract_patient_name`):
first pattern-1 match anywhere, else first pattern-2 match, else the literal `Patient`. -/
def extract_patient_name (text : Str) : Str :=
  match searchP1 text with
  | some n => n
  | none =>
    match searchP2 text with
    | some n => n
    | none => lit ("Patient")

/-- The per-line content that `segment_conversation` adds to `all_lines`, in source order:
blank lines are dropped, tagged lines contribute their tag-stripped text, untagged lines
their stripped text. -/
def lineContents : List Str → List Str
  | [] => []
  | l :: ls =>
    let t := strip l
    if t = [] then lineContents ls
    else if begins doctorTag t then strip (delAll doctorTag t) :: lineContents ls
    else if begins patientTag t then strip (delAll patientTag t) :: lineContents ls
    else t :: lineContents ls

/-- Whether the first non-blank line of the list carries a speaker tag (vacuously true when
every line is blank). -/
def firstTaggedLines : List Str → Bool
  | [] => true
  | l :: ls =>
    let t := strip l
    if t = [] then firstTaggedLines ls
    else begins doctorTag t || begins patientTag t

/-- Whether the first non-blank line of the transcript carries a speaker tag. -/
def firstTagged (text : Str) : Bool := firstTaggedLines (splitNl text)

/-- The hypothesis of C9: in every line of the transcript, `Doctor:` and `Patient:` occur
only as the leading speaker tag of the stripped line, i.e. never at a positive offset. -/
def tagsOnlyLeading (text : Str) : Bool :=
  (splitNl text).all (fun l =>
    !occurs patientTag ((strip l).drop 1) && !occurs doctorTag ((strip l).drop 1))

/-- The apostrophe character, used by the concrete transcripts below. -/
def apos : Char := Char.ofNat 39

/-- The concrete transcript of claim C1. -/
def transcriptC1 : Str :=
  lit ("Doctor: How are you feeling?") ++ '\n' ::
  (lit ("Patient: I have fever and a bad headache, I") ++ apos ::
   lit ("m worried it") ++ apos :: lit ("s serious."))

/-- Concrete transcript refuting C2: one doctor utterance, one patient utterance (a tie),
followed by an untagged continuation line. -/
def transcriptC2 : Str :=
  lit ("Doctor: hi there friend") ++ '\n' :: lit ("Patient: hello doc") ++ '\n' ::
    lit ("and more stuff")

/-- Concrete transcript refuting C3: a single untagged line, kept in `full_text` but
assigned to neither speaker. -/
def transcriptC3 : Str := lit ("hello")

/-- A 21-character sentence with no medical keyword, used twice in `textC4`. -/
def sentX : Str := lit ("abcdefghijklmnopqrstu")

/-- A 30-character sentence with no medical keyword. -/
def sentY : Str := lit ("bbbbbbbbbbbbbbbbbbbbbbbbbbbbbb")

/-- Another 30-character sentence with no medical keyword. -/
def sentZ : Str := lit ("cccccccccccccccccccccccccccccc")

/-- Concrete text refuting C4: four qualifying sentences `X. Y. X. Z.` in which the second
copy of `X` scores below the other three, so the top three are `Z`, `X` (first copy), `Y`
— yet the re-ordering step keeps both copies of `X`. -/
def textC4 : Str :=
  sentX ++ lit (". ") ++ sentY ++ lit (". ") ++ sentX ++ lit (". ") ++ sentZ

/-- A concrete `list(set(...))` iteration order for the C5 counterexample: reversed
first-seen order (a legitimate hash-set order: duplicate-free, same elements). -/
def revD (xs : List Str) : List Str := dedupFirst xs.reverse

/-- Concrete NER bag for the C5 counterexample. -/
def nerBagC5 : EntityBag := ⟨[lit ("alpha"), lit ("beta")], [], [], []⟩

/-- Concrete transcript for the C9 witness. -/
def transcriptC9w : Str :=
  lit ("Doctor: Hello Janet, how are you feeling?") ++ '\n' :: lit ("Patient: I am fine")

theorem begins_append_of : ∀ (p s t : Str), begins p s = true → begins p (s ++ t) = true
  | [], _, _, _ => rfl
  | x :: xs, [], t, h => by simp [begins] at h
  | x :: xs, y :: ys, t, h => by
    simp only [begins, Bool.and_eq_true, decide_eq_true_eq] at h
    simp only [List.cons_append, begins, Bool.and_eq_true, decide_eq_true_eq]
    exact ⟨h.1, begins_append_of xs ys t h.2⟩

theorem begins_self_append : ∀ (p t : Str), begins p (p ++ t) = true
  | [], _ => rfl
  | x :: xs, t => by
    simp only [List.cons_append, begins, Bool.and_eq_true, decide_eq_true_eq]
    refine ⟨?_, begins_self_append xs t⟩
    trivial

theorem begins_iff_append (p s : Str) : begins p s = true ↔ ∃ t, s = p ++ t := by
  constructor
  · intro h
    induction p generalizing s with
    | nil => exact ⟨s, rfl⟩
    | cons x xs ih =>
      cases s with
      | nil => simp [begins] at h
      | cons y ys =>
        simp only [begins, Bool.and_eq_true, decide_eq_true_eq] at h
        obtain ⟨t, ht⟩ := ih ys h.2
        exact ⟨t, by simp [h.1.symm, ht]⟩
  · rintro ⟨t, rfl⟩
    exact begins_self_append p t

theorem begins_nil_eq (p : Str) (h : begins p [] = true) : p = [] := by
  cases p with
  | nil => rfl
  | cons x xs => simp [begins] at h

theorem occurs_nil_pat : ∀ (s : Str), occurs [] s = true
  | [] => rfl
  | _ :: cs => by simp [occurs, begins]

theorem occurs_of_begins (p s : Str) (h : begins p s = true) : occurs p s = true := by
  cases s with
  | nil => simpa [occurs] using h
  | cons c cs => simp [occurs, h]

theorem occurs_cons_of (p : Str) (c : Char) (cs : Str) (h : occurs p cs = true) :
    occurs p (c :: cs) = true := by
  simp [occurs, h]

theorem occurs_append_left : ∀ (p a b : Str), occurs p a = true → occurs p (a ++ b) = true
  | p, [], b, h => by
    have hp : p = [] := begins_nil_eq p (by simpa [occurs] using h)
    subst hp
    exact occurs_nil_pat b
  | p, c :: cs, b, h => by
    simp only [occurs, Bool.or_eq_true] at h
    rcases h with h | h
    · exact occurs_of_begins _ _ (by simpa using begins_append_of p (c :: cs) b h)
    · exact occurs_cons_of _ _ _ (occurs_append_left p cs b h)

theorem occurs_append_right : ∀ (p a b : Str), occurs p b = true → occurs p (a ++ b) = true
  | _, [], _, h => h
  | p, c :: cs, b, h => occurs_cons_of _ _ _ (occurs_append_right p cs b h)

theorem occurs_drop (p s : Str) (n : Nat) (h : occurs p (s.drop n) = true) :
    occurs p s = true := by
  have := occurs_append_right p (s.take n) (s.drop n) h
  simpa [List.take_append_drop] using this

theorem begins_append_no : ∀ (p a b : Str) (c : Char), (∀ x ∈ p, x ≠ c) →
    begins p (a ++ c :: b) = true → begins p a = true
  | [], _, _, _, _, _ => rfl
  | x :: xs, [], b, c, hc, h => by
    simp only [List.nil_append, begins, Bool.and_eq_true, decide_eq_true_eq] at h
    exact absurd h.1 (hc x (by simp))
  | x :: xs, y :: ys, b, c, hc, h => by
    simp only [List.cons_append, begins, Bool.and_eq_true, decide_eq_true_eq] at h
    simp only [begins, Bool.and_eq_true, decide_eq_true_eq]
    exact ⟨h.1, begins_append_no xs ys b c (fun z hz => hc z (by simp [hz])) h.2⟩

theorem occurs_append_sep : ∀ (p a b : Str) (c : Char), (∀ x ∈ p, x ≠ c) →
    occurs p (a ++ c :: b) = true → occurs p a = true ∨ occurs p b = true
  | p, [], b, c, hc, h => by
    simp only [List.nil_append, occurs, Bool.or_eq_true] at h
    rcases h with h | h
    · cases p with
      | nil => exact Or.inl (occurs_nil_pat [])
      | cons x xs =>
        simp only [begins, Bool.and_eq_true, decide_eq_true_eq] at h
        exact absurd h.1 (hc x (by simp))
    · exact Or.inr h
  | p, y :: ys, b, c, hc, h => by
    simp only [List.cons_append, occurs, Bool.or_eq_true] at h
    rcases h with h | h
    · exact Or.inl (occurs_of_begins _ _
        (begins_append_no p (y :: ys) b c hc (by simpa using h)))
    · rcases occurs_append_sep p ys b c hc h with h' | h'
      · exact Or.inl (occurs_cons_of _ _ _ h')
      · exact Or.inr h'

theorem collapse_cons_head (p : Char → Bool) (c : Char) :
    ∀ (t : List Char) (b : Char), ∃ rest,
      collapse p c (b :: t) = (if p b then c else b) :: rest
  | [], b => ⟨[], rfl⟩
  | d :: ds, b => by
    by_cases hbd : (p b && p d) = true
    · obtain ⟨r, hr⟩ := collapse_cons_head p c ds d
      simp only [Bool.and_eq_true] at hbd
      refine ⟨r, ?_⟩
      simp [collapse, hbd.1, hbd.2, hr]
    · exact ⟨collapse p c (d :: ds), by simp [collapse, hbd]⟩

theorem collapse_takeWhile_not (p : Char → Bool) (c : Char) (hc : p c = true) :
    ∀ s : Str, (collapse p c s).takeWhile (fun x => !p x) = s.takeWhile (fun x => !p x)
  | [] => rfl
  | [a] => by
    by_cases ha : p a = true
    · simp [collapse, List.takeWhile, ha, hc]
    · simp [collapse, List.takeWhile, ha]
  | a :: b :: t => by
    by_cases hab : (p a && p b) = true
    · simp only [Bool.and_eq_true] at hab
      rw [show collapse p c (a :: b :: t) = collapse p c (b :: t) by
        simp [collapse, hab.1, hab.2]]
      rw [collapse_takeWhile_not p c hc (b :: t)]
      simp [List.takeWhile, hab.1, hab.2]
    · rw [show collapse p c (a :: b :: t)
          = (if p a then c else a) :: collapse p c (b :: t) by simp [collapse, hab]]
      by_cases ha : p a = true
      · simp [List.takeWhile, ha, hc]
      · have ha' : p a = false := by simpa using ha
        rw [if_neg (by simp [ha'])]
        rw [List.takeWhile_cons, List.takeWhile_cons]
        simp [ha', collapse_takeWhile_not p c hc (b :: t)]

theorem begins_takeWhile_not (p : Char → Bool) :
    ∀ (pat s : Str), (∀ x ∈ pat, p x = false) → begins pat s = true →
      begins pat (s.takeWhile (fun x => !p x)) = true
  | [], _, _, _ => rfl
  | x :: xs, [], _, h => by simp [begins] at h
  | x :: xs, y :: ys, hp, h => by
    simp only [begins, Bool.and_eq_true, decide_eq_true_eq] at h
    have hy : p y = false := h.1 ▸ hp x (by simp)
    simp only [List.takeWhile, hy, Bool.not_false, begins, Bool.and_eq_true,
      decide_eq_true_eq]
    exact ⟨h.1, begins_takeWhile_not p xs ys (fun z hz => hp z (by simp [hz])) h.2⟩

theorem begins_singleton (pat : Str) (z : Char) (h : begins pat [z] = true) :
    pat = [] ∨ pat = [z] := by
  cases pat with
  | nil => exact Or.inl rfl
  | cons x xs =>
    simp only [begins, Bool.and_eq_true, decide_eq_true_eq] at h
    cases xs with
    | nil => exact Or.inr (by simp [h.1])
    | cons w ws => simp [begins] at h

theorem occurs_takeWhile_not (p : Char → Bool) (pat s : Str)
    (hp : ∀ x ∈ pat, p x = false) (h : begins pat (s.takeWhile (fun x => !p x)) = true) :
    occurs pat s = true := by
  have h1 : occurs pat (s.takeWhile (fun x => !p x)) = true := occurs_of_begins _ _ h
  have := occurs_append_left pat (s.takeWhile (fun x => !p x))
    (s.dropWhile (fun x => !p x)) h1
  simpa [List.takeWhile_append_dropWhile] using this

theorem occurs_collapse (p : Char → Bool) (c : Char) (pat : Str) (hc : p c = true)
    (hne : pat ≠ []) (hp : ∀ x ∈ pat, p x = false) :
    ∀ s : Str, occurs pat (collapse p c s) = true → occurs pat s = true
  | [], h => by
    rw [show collapse p c [] = [] from rfl] at h
    exact absurd (begins_nil_eq pat (by simpa [occurs] using h)) hne
  | [a], h => by
    by_cases ha : p a = true
    · rw [show collapse p c [a] = [c] by simp [collapse, ha]] at h
      simp only [occurs, Bool.or_eq_true] at h
      rcases h with h | h
      · rcases begins_singleton pat c h with h' | h'
        · exact absurd h' hne
        · have hmem : c ∈ pat := by simp [h']
          have := hp c hmem
          simp [hc] at this
      · exact absurd (begins_nil_eq pat (by simpa [occurs] using h)) hne
    · rw [show collapse p c [a] = [a] by simp [collapse, ha]] at h
      exact h
  | a :: b :: t, h => by
    by_cases hab : (p a && p b) = true
    · simp only [Bool.and_eq_true] at hab
      rw [show collapse p c (a :: b :: t) = collapse p c (b :: t) by
        simp [collapse, hab.1, hab.2]] at h
      exact occurs_cons_of _ _ _ (occurs_collapse p c pat hc hne hp (b :: t) h)
    · have hcol : collapse p c (a :: b :: t)
          = (if p a then c else a) :: collapse p c (b :: t) := by simp [collapse, hab]
      rw [hcol] at h
      simp only [occurs, Bool.or_eq_true] at h
      rcases h with h | h
      · have hbeg : begins pat (collapse p c (a :: b :: t)) = true := by
          rw [hcol]; exact h
        have h2 := begins_takeWhile_not p pat (collapse p c (a :: b :: t)) hp hbeg
        rw [collapse_takeWhile_not p c hc (a :: b :: t)] at h2
        exact occurs_takeWhile_not p pat (a :: b :: t) hp h2
      · exact occurs_cons_of _ _ _ (occurs_collapse p c pat hc hne hp (b :: t) h)

theorem allws_takeWhile (s : Str) : ∀ x ∈ s.takeWhile wsChar, wsChar x = true := by
  induction s with
  | nil => simp
  | cons c cs ih =>
    by_cases hc : wsChar c = true
    · simp only [List.takeWhile, hc]
      intro x hx
      rcases List.mem_cons.mp hx with h | h
      · simpa [h] using hc
      · exact ih x h
    · simp [List.takeWhile, hc]

theorem rstrip_decomp (s : Str) :
    ∃ t, (∀ x ∈ t, wsChar x = true) ∧ s = rstrip s ++ t := by
  refine ⟨(s.reverse.takeWhile wsChar).reverse, ?_, ?_⟩
  · intro x hx
    exact allws_takeWhile s.reverse x (List.mem_reverse.mp hx)
  · have h1 : s.reverse.takeWhile wsChar ++ s.reverse.dropWhile wsChar = s.reverse :=
      List.takeWhile_append_dropWhile _ _
    have h2 := congrArg List.reverse h1
    simp only [List.reverse_append, List.reverse_reverse] at h2
    exact h2.symm

theorem occurs_dropWhile (q : Char → Bool) (pat s : Str)
    (h : occurs pat (s.dropWhile q) = true) : occurs pat s = true := by
  have := occurs_append_right pat (s.takeWhile q) (s.dropWhile q) h
  simpa [List.takeWhile_append_dropWhile] using this

theorem occurs_strip (pat s : Str) (h : occurs pat (strip s) = true) :
    occurs pat s = true := by
  have h1 : occurs pat (rstrip s) = true := occurs_dropWhile wsChar pat (rstrip s) h
  obtain ⟨t, _, ht⟩ := rstrip_decomp s
  rw [ht]
  exact occurs_append_left pat (rstrip s) t h1

theorem lstrip_head_not_ws : ∀ (s : Str) (c : Char) (r : Str),
    lstrip s = c :: r → wsChar c = false
  | [], c, r, h => by simp [lstrip] at h
  | d :: ds, c, r, h => by
    by_cases hd : wsChar d = true
    · exact lstrip_head_not_ws ds c r (by simpa [lstrip, List.dropWhile, hd] using h)
    · simp only [lstrip, List.dropWhile, hd] at h
      cases h
      simpa using hd

theorem strip_head_not_ws (s : Str) (c : Char) (r : Str) (h : strip s = c :: r) :
    wsChar c = false :=
  lstrip_head_not_ws (rstrip s) c r h

theorem delAllF_no_occ (pat : Str) :
    ∀ (fuel : Nat) (s : Str), occurs pat s = false → delAllF pat fuel s = s
  | fuel, [], _ => by cases fuel <;> rfl
  | 0, _ :: _, _ => rfl
  | fuel + 1, c :: cs, h => by
    simp only [occurs, Bool.or_eq_false_iff] at h
    simp only [delAllF, h.1, Bool.and_false, Bool.false_eq_true, if_false]
    rw [delAllF_no_occ pat fuel cs h.2]

theorem delAll_no_occ (pat s : Str) (h : occurs pat s = false) : delAll pat s = s :=
  delAllF_no_occ pat s.length s h

theorem delAll_tag (pat s : Str) (hne : pat ≠ []) (hb : begins pat s = true)
    (hno : occurs pat (s.drop pat.length) = false) :
    delAll pat s = s.drop pat.length := by
  cases s with
  | nil =>
    exact absurd (begins_nil_eq pat hb) hne
  | cons c cs =>
    have hpe : pat.isEmpty = false := by
      cases pat with
      | nil => exact absurd rfl hne
      | cons x xs => rfl
    show delAllF pat (cs.length + 1) (c :: cs) = (c :: cs).drop pat.length
    simp only [delAllF, hpe, Bool.not_false, hb, Bool.and_self, if_true]
    exact delAllF_no_occ pat cs.length ((c :: cs).drop pat.length) hno

theorem occurs_false_of_drop_one (pat t : Str) (hb : begins pat t = false)
    (h1 : occurs pat (t.drop 1) = false) : occurs pat t = false := by
  cases t with
  | nil =>
    simpa [occurs] using hb
  | cons c cs =>
    simp only [occurs, Bool.or_eq_false_iff]
    exact ⟨hb, by simpa using h1⟩

theorem occurs_drop_of_drop_one (pat t : Str) (n : Nat) (hn : 1 ≤ n)
    (h1 : occurs pat (t.drop 1) = false) : occurs pat (t.drop n) = false := by
  by_contra hx
  have hx' : occurs pat (t.drop n) = true := by simpa using hx
  have hsplit : t.drop n = (t.drop 1).drop (n - 1) := by
    rw [List.drop_drop]
    congr 1
    omega
  rw [hsplit] at hx'
  have := occurs_drop pat (t.drop 1) (n - 1) hx'
  have h1' : occurs pat t.tail = false := by simpa [List.drop_one] using h1
  simp [List.drop_one, h1, h1'] at this

theorem content_no_occ (pat q t : Str) (hq : q ≠ [])
    (hb : begins q t = true) (h1 : occurs pat (t.drop 1) = false)
    (hq1 : occurs q (t.drop 1) = false) :
    occurs pat (strip (delAll q t)) = false := by
  have hlenq : 1 ≤ q.length := by
    cases q with
    | nil => exact absurd rfl hq
    | cons x xs => simp
  have hrq : occurs q (t.drop q.length) = false :=
    occurs_drop_of_drop_one q t q.length hlenq hq1
  rw [delAll_tag q t hq hb hrq]
  by_contra hx
  have hx' : occurs pat (strip (t.drop q.length)) = true := by simpa using hx
  have h2 := occurs_strip pat (t.drop q.length) hx'
  have h3 : occurs pat (t.drop q.length) = false :=
    occurs_drop_of_drop_one pat t q.length hlenq h1
  simp [h3] at h2

theorem segStep_alls_no (acc : SegAcc) (rawLine : Str)
    (hacc : ∀ x ∈ acc.alls, occurs patientTag x = false)
    (h1 : occurs patientTag ((strip rawLine).drop 1) = false)
    (h2 : occurs doctorTag ((strip rawLine).drop 1) = false) :
    ∀ x ∈ (segStep acc rawLine).alls, occurs patientTag x = false := by
  unfold segStep
  by_cases h0 : strip rawLine = []
  · simpa [h0] using hacc
  · rw [if_neg h0]
    by_cases hd : begins doctorTag (strip rawLine) = true
    · simp only [hd, if_true]
      intro x hx
      rcases List.mem_append.mp hx with hx | hx
      · exact hacc x hx
      · rw [List.mem_singleton.mp hx]
        exact content_no_occ patientTag doctorTag (strip rawLine) (by decide) hd h1 h2
    · simp only [hd, Bool.false_eq_true, if_false]
      by_cases hpt : begins patientTag (strip rawLine) = true
      · simp only [hpt, if_true]
        intro x hx
        rcases List.mem_append.mp hx with hx | hx
        · exact hacc x hx
        · rw [List.mem_singleton.mp hx]
          exact content_no_occ patientTag patientTag (strip rawLine) (by decide) hpt h1 h1
      · simp only [hpt, Bool.false_eq_true, if_false]
        have hline : occurs patientTag (strip rawLine) = false :=
          occurs_false_of_drop_one patientTag (strip rawLine) (by simpa using hpt) h1
        intro x hx
        split at hx
        · rcases List.mem_append.mp hx with hx | hx
          · exact hacc x hx
          · rw [List.mem_singleton.mp hx]; exact hline
        · split at hx
          · rcases List.mem_append.mp hx with hx | hx
            · exact hacc x hx
            · rw [List.mem_singleton.mp hx]; exact hline
          · rcases List.mem_append.mp hx with hx | hx
            · exact hacc x hx
            · rw [List.mem_singleton.mp hx]; exact hline

theorem fold_alls_no :
    ∀ (ls : List Str) (acc : SegAcc),
      (∀ l ∈ ls, occurs patientTag ((strip l).drop 1) = false
        ∧ occurs doctorTag ((strip l).drop 1) = false) →
      (∀ x ∈ acc.alls, occurs patientTag x = false) →
      ∀ x ∈ (ls.foldl segStep acc).alls, occurs patientTag x = false
  | [], _, _, hacc => hacc
  | l :: ls, acc, hl, hacc => by
    simp only [List.foldl_cons]
    exact fold_alls_no ls (segStep acc l) (fun m hm => hl m (by simp [hm]))
      (segStep_alls_no acc l hacc (hl l (by simp)).1 (hl l (by simp)).2)

theorem occurs_joinSp_no (pat : Str) (hne : pat ≠ []) (hsp : ∀ x ∈ pat, x ≠ ' ') :
    ∀ L : List Str, (∀ x ∈ L, occurs pat x = false) → occurs pat (joinSp L) = false
  | [], _ => by
    cases pat with
    | nil => exact absurd rfl hne
    | cons x xs => rfl
  | [x], h => h x (by simp)
  | x :: y :: xs, h => by
    show occurs pat (x ++ ' ' :: joinSp (y :: xs)) = false
    by_contra hc
    have hc' : occurs pat (x ++ ' ' :: joinSp (y :: xs)) = true := by simpa using hc
    rcases occurs_append_sep pat x (joinSp (y :: xs)) ' ' hsp hc' with h' | h'
    · simp [h x (by simp)] at h'
    · have hrec := occurs_joinSp_no pat hne hsp (y :: xs) (fun z hz => h z (by simp [hz]))
      simp [hrec] at h'

theorem occurs_normalize_no (pat : Str) (hne : pat ≠ [])
    (hws : ∀ x ∈ pat, wsChar x = false) (hdot : ∀ x ∈ pat, dotChar x = false)
    (s : Str) (h : occurs pat s = false) : occurs pat (normalize_text s) = false := by
  by_contra hc
  have hc' : occurs pat (normalize_text s) = true := by simpa using hc
  rw [normalize_text] at hc'
  have h1 := occurs_strip pat _ hc'
  have h2 := occurs_collapse dotChar '.' pat (by decide) hne hdot _ h1
  have h3 := occurs_collapse wsChar ' ' pat (by decide) hne hws _ h2
  simp [h] at h3

theorem searchP1_none (s : Str) (h : occurs patientTag s = false) : searchP1 s = none := by
  induction s with
  | nil => rfl
  | cons c cs ih =>
    simp only [occurs, Bool.or_eq_false_iff] at h
    simp only [searchP1, p1At, h.1, Bool.false_eq_true, if_false]
    exact ih h.2

/-- C9: for every raw transcript in which `Doctor:` and `Patient:` occur only as
line-leading speaker tags, the `full_text` produced by segmentation contains no occurrence
of `Patient:`, so the patient-name extractor's first pattern
(`Patient:\s*CapitalizedName`) can never match pipeline-produced `full_text`, and the
reported patient name comes only from the second
(name-followed-by-`how`/`feeling`/`doing`) pattern or defaults to the literal `Patient`. -/
theorem c9_patient_tag_never_in_full_text (text : Str)
    (hp : tagsOnlyLeading text = true) :
    occurs patientTag (segment_conversation text).full_text = false
    ∧ searchP1 (segment_conversation text).full_text = none
    ∧ extract_patient_name (segment_conversation text).full_text
        = (match searchP2 (segment_conversation text).full_text with
           | some n => n
           | none => lit ("Patient")) := by
  have hlines : ∀ l ∈ splitNl text,
      occurs patientTag ((strip l).drop 1) = false
      ∧ occurs doctorTag ((strip l).drop 1) = false := by
    intro l hl
    have := (List.all_eq_true.mp hp) l hl
    simpa only [Bool.and_eq_true, Bool.not_eq_true'] using this
  have hfold := fold_alls_no (splitNl text) ⟨[], [], []⟩ hlines (by simp)
  have hjoin := occurs_joinSp_no patientTag (by decide) (by decide) _ hfold
  have hfull : occurs patientTag (segment_conversation text).full_text = false := by
    show occurs patientTag
      (normalize_text (joinSp ((splitNl text).foldl segStep ⟨[], [], []⟩).alls)) = false
    exact occurs_normalize_no patientTag (by decide) (by decide) (by decide) _ hjoin
  have hs1 : searchP1 (segment_conversation text).full_text = none :=
    searchP1_none _ hfull
  refine ⟨hfull, hs1, ?_⟩
  unfold extract_patient_name
  rw [hs1]

/-- Witness for C9 at a concrete two-line transcript: the hypothesis holds and the theorem
applies; the name then comes from pattern 2. -/
theorem c9_patient_tag_never_in_full_text_witness :
    tagsOnlyLeading transcriptC9w = true
    ∧ (occurs patientTag (segment_conversation transcriptC9w).full_text = false
       ∧ searchP1 (segment_conversation transcriptC9w).full_text = none
       ∧ extract_patient_name (segment_conversation transcriptC9w).full_text
           = (match searchP2 (segment_conversation transcriptC9w).full_text with
              | some n => n
              | none => lit ("Patient"))) :=
  ⟨by decide, c9_patient_tag_never_in_full_text transcriptC9w (by decide)⟩

theorem tokens_singleton (c : Char) :
    tokens [c] = if wsChar c = true then [] else [[c]] := rfl

theorem tokens_cons_cons (c d : Char) (r : Str) :
    tokens (c :: d :: r) =
      if wsChar c = true then tokens (d :: r)
      else if wsChar d = true then [c] :: tokens (d :: r)
      else
        match tokens (d :: r) with
        | [] => [[c]]
        | t :: ts => (c :: t) :: ts := rfl

theorem tokens_cons_ws (c : Char) (r : Str) (hc : wsChar c = true) :
    tokens (c :: r) = tokens r := by
  cases r with
  | nil => rw [tokens_singleton, if_pos hc]; rfl
  | cons d rs => rw [tokens_cons_cons, if_pos hc]

theorem tokens_cons_nonws : ∀ (r : Str) (d : Char), wsChar d = false →
    ∃ w ts, tokens (d :: r) = (d :: w) :: ts
  | [], d, hd => ⟨[], [], by rw [tokens_singleton, if_neg (by simp [hd])]⟩
  | e :: es, d, hd => by
    rw [tokens_cons_cons, if_neg (by simp [hd])]
    by_cases he : wsChar e = true
    · exact ⟨[], tokens (e :: es), by rw [if_pos he]⟩
    · obtain ⟨w, ts, hw⟩ := tokens_cons_nonws es e (by simpa using he)
      refine ⟨e :: w, ts, ?_⟩
      rw [if_neg he, hw]

theorem tokens_allws : ∀ b : Str, (∀ x ∈ b, wsChar x = true) → tokens b = []
  | [], _ => rfl
  | c :: cs, h => by
    rw [tokens_cons_ws c cs (h c (by simp))]
    exact tokens_allws cs (fun x hx => h x (by simp [hx]))

theorem tokens_append_space : ∀ (a b : Str), tokens (a ++ ' ' :: b) = tokens a ++ tokens b
  | [], b => by
    rw [List.nil_append, tokens_cons_ws ' ' b (by decide)]
    rfl
  | [c], b => by
    show tokens (c :: ' ' :: b) = tokens [c] ++ tokens b
    rw [tokens_cons_cons, tokens_singleton, tokens_cons_ws ' ' b (by decide)]
    by_cases hc : wsChar c = true
    · rw [if_pos hc, if_pos hc]; rfl
    · rw [if_neg hc, if_pos (by decide : wsChar ' ' = true), if_neg hc]
      rfl
  | c :: d :: a, b => by
    show tokens (c :: d :: (a ++ ' ' :: b)) = tokens (c :: d :: a) ++ tokens b
    rw [tokens_cons_cons, tokens_cons_cons c d a]
    have hrec := tokens_append_space (d :: a) b
    rw [List.cons_append] at hrec
    by_cases hc : wsChar c = true
    · rw [if_pos hc, if_pos hc]
      exact hrec
    · rw [if_neg hc, if_neg hc]
      by_cases hd : wsChar d = true
      · rw [if_pos hd, if_pos hd, hrec]
        rfl
      · rw [if_neg hd, if_neg hd]
        obtain ⟨w, ts, hw⟩ := tokens_cons_nonws a d (by simpa using hd)
        rw [hw] at hrec
        rw [hrec, hw]
        rfl

theorem tokens_append_ws : ∀ (a b : Str), (∀ x ∈ b, wsChar x = true) →
    tokens (a ++ b) = tokens a
  | [], b, hb => by simpa using tokens_allws b hb
  | [c], b, hb => by
    show tokens (c :: b) = tokens [c]
    cases b with
    | nil => rfl
    | cons e es =>
      have he : wsChar e = true := hb e (by simp)
      rw [tokens_cons_cons, tokens_singleton]
      by_cases hc : wsChar c = true
      · rw [if_pos hc, if_pos hc, tokens_cons_ws e es he]
        exact tokens_allws es (fun x hx => hb x (by simp [hx]))
      · rw [if_neg hc, if_pos he, if_neg hc, tokens_cons_ws e es he]
        rw [tokens_allws es (fun x hx => hb x (by simp [hx]))]
  | c :: d :: a, b, hb => by
    show tokens (c :: d :: (a ++ b)) = tokens (c :: d :: a)
    rw [tokens_cons_cons, tokens_cons_cons c d a]
    have hrec := tokens_append_ws (d :: a) b hb
    rw [List.cons_append] at hrec
    by_cases hc : wsChar c = true
    · rw [if_pos hc, if_pos hc]
      exact hrec
    · rw [if_neg hc, if_neg hc]
      by_cases hd : wsChar d = true
      · rw [if_pos hd, if_pos hd, hrec]
      · rw [if_neg hd, if_neg hd]
        obtain ⟨w, ts, hw⟩ := tokens_cons_nonws a d (by simpa using hd)
        rw [hw] at hrec
        rw [hrec, hw]

theorem tokens_lstrip : ∀ s : Str, tokens (lstrip s) = tokens s
  | [] => rfl
  | c :: cs => by
    by_cases hc : wsChar c = true
    · rw [show lstrip (c :: cs) = lstrip cs by simp [lstrip, List.dropWhile, hc]]
      rw [tokens_lstrip cs, tokens_cons_ws c cs hc]
    · simp [lstrip, List.dropWhile, hc]

theorem tokens_rstrip (s : Str) : tokens (rstrip s) = tokens s := by
  obtain ⟨t, hws, hdecomp⟩ := rstrip_decomp s
  conv_rhs => rw [hdecomp]
  exact (tokens_append_ws (rstrip s) t hws).symm

theorem tokens_strip (s : Str) : tokens (strip s) = tokens s := by
  rw [strip, tokens_lstrip, tokens_rstrip]

theorem collapse_two (p : Char → Bool) (c a b : Char) (t : Str) :
    collapse p c (a :: b :: t) =
      if (p a && p b) = true then collapse p c (b :: t)
      else (if p a then c else a) :: collapse p c (b :: t) := rfl

theorem dot_nonws (x : Char) (h : dotChar x = true) : wsChar x = false := by
  have hx : x = '.' := by simpa [dotChar] using h
  subst hx
  decide

theorem tokens_cons_wshead (a e : Char) (es : Str) (ha : wsChar a = false)
    (he : wsChar e = true) : tokens (a :: e :: es) = [a] :: tokens (e :: es) := by
  rw [tokens_cons_cons, if_neg (by simp [ha]), if_pos he]

theorem tokens_cons_merge (a e : Char) (es : Str) (t1 : Str) (ts : List Str)
    (ha : wsChar a = false) (he : wsChar e = false)
    (hw : tokens (e :: es) = t1 :: ts) : tokens (a :: e :: es) = (a :: t1) :: ts := by
  rw [tokens_cons_cons, if_neg (by simp [ha]), if_neg (by simp [he]), hw]

theorem tokens_collapseW : ∀ s : Str, tokens (collapse wsChar ' ' s) = tokens s
  | [] => rfl
  | [a] => by
    show tokens [if wsChar a then ' ' else a] = tokens [a]
    by_cases ha : wsChar a = true
    · rw [if_pos ha, tokens_singleton, tokens_singleton, if_pos ha,
        if_pos (by decide : wsChar ' ' = true)]
    · rw [if_neg ha]
  | a :: b :: t => by
    rw [collapse_two]
    by_cases hab : (wsChar a && wsChar b) = true
    · rw [if_pos hab]
      have hA := (Bool.and_eq_true _ _).mp hab
      rw [tokens_collapseW (b :: t), tokens_cons_ws a _ hA.1]
    · rw [if_neg hab]
      by_cases ha : wsChar a = true
      · have hb : wsChar b = false := by
          cases hwb : wsChar b
          · rfl
          · exact absurd (by simp [ha, hwb]) hab
        rw [if_pos ha, tokens_cons_ws ' ' _ (by decide), tokens_collapseW (b :: t),
          tokens_cons_ws a _ ha]
      · have ha' : wsChar a = false := by simpa using ha
        rw [if_neg ha]
        obtain ⟨rest, hhead⟩ := collapse_cons_head wsChar ' ' t b
        by_cases hb : wsChar b = true
        · rw [hhead, if_pos hb]
          rw [tokens_cons_wshead a ' ' rest ha' (by decide)]
          rw [show tokens (' ' :: rest) = tokens (collapse wsChar ' ' (b :: t)) by
            rw [hhead, if_pos hb]]
          rw [tokens_collapseW (b :: t), tokens_cons_wshead a b t ha' hb]
        · have hb' : wsChar b = false := by simpa using hb
          obtain ⟨w, ts, hw⟩ := tokens_cons_nonws t b hb'
          have hIH := tokens_collapseW (b :: t)
          rw [hw] at hIH
          have hshape : tokens (b :: rest) = (b :: w) :: ts := by
            rw [show (b :: rest) = collapse wsChar ' ' (b :: t) by
              rw [hhead, if_neg (by simp [hb'])]]
            exact hIH
          rw [hhead, if_neg (by simp [hb'])]
          rw [tokens_cons_merge a b rest (b :: w) ts ha' hb' hshape]
          rw [tokens_cons_merge a b t (b :: w) ts ha' hb' hw]

theorem collapse_one_eq (p : Char → Bool) (c a : Char) :
    collapse p c [a] = [if p a then c else a] := rfl

theorem tokens_collapseD :
    ∀ s : Str, tokens (collapse dotChar '.' s)
      = (tokens s).map (collapse dotChar '.')
  | [] => rfl
  | [a] => by
    rw [collapse_one_eq]
    by_cases hd : dotChar a = true
    · rw [if_pos hd]
      have ha : wsChar a = false := dot_nonws a hd
      rw [tokens_singleton, tokens_singleton, if_neg (by decide), if_neg (by simp [ha])]
      rw [List.map_cons, List.map_nil, collapse_one_eq, if_pos hd]
    · rw [if_neg hd]
      by_cases ha : wsChar a = true
      · rw [tokens_singleton, if_pos ha, List.map_nil]
      · rw [tokens_singleton, if_neg ha]
        rw [List.map_cons, List.map_nil, collapse_one_eq, if_neg hd]
  | a :: b :: t => by
    rw [collapse_two]
    by_cases hab : (dotChar a && dotChar b) = true
    · rw [if_pos hab]
      have hA := (Bool.and_eq_true _ _).mp hab
      have hwa : wsChar a = false := dot_nonws a hA.1
      have hwb : wsChar b = false := dot_nonws b hA.2
      obtain ⟨w, ts, hw⟩ := tokens_cons_nonws t b hwb
      rw [tokens_collapseD (b :: t), hw]
      rw [tokens_cons_merge a b t (b :: w) ts hwa hwb hw]
      rw [List.map_cons, List.map_cons]
      rw [show collapse dotChar '.' (a :: b :: w) = collapse dotChar '.' (b :: w) by
        rw [collapse_two, if_pos hab]]
    · rw [if_neg hab]
      by_cases ha : wsChar a = true
      · have hda : dotChar a = false := by
          cases hdd : dotChar a
          · rfl
          · rw [dot_nonws a hdd] at ha; exact absurd ha (by simp)
        rw [show (if dotChar a then '.' else a) = a from if_neg (by simp [hda])]
        rw [tokens_cons_ws a _ ha, tokens_collapseD (b :: t), tokens_cons_ws a _ ha]
      · have ha' : wsChar a = false := by simpa using ha
        have hz : wsChar (if dotChar a then '.' else a) = false := by
          by_cases hda : dotChar a = true
          · rw [if_pos hda]; decide
          · rw [if_neg hda]; exact ha'
        obtain ⟨rest, hhead⟩ := collapse_cons_head dotChar '.' t b
        by_cases hb : wsChar b = true
        · have hdb : dotChar b = false := by
            cases hdd : dotChar b
            · rfl
            · rw [dot_nonws b hdd] at hb; exact absurd hb (by simp)
          rw [show (if dotChar b then '.' else b) = b from if_neg (by simp [hdb])] at hhead
          rw [hhead]
          rw [tokens_cons_wshead _ b rest hz hb]
          rw [show tokens (b :: rest) = tokens (collapse dotChar '.' (b :: t)) by
            rw [hhead]]
          rw [tokens_collapseD (b :: t), tokens_cons_wshead a b t ha' hb]
          rw [List.map_cons, collapse_one_eq]
        · have hb' : wsChar b = false := by simpa using hb
          have hwd : wsChar (if dotChar b then '.' else b) = false := by
            by_cases hdb : dotChar b = true
            · rw [if_pos hdb]; decide
            · rw [if_neg hdb]; exact hb'
          obtain ⟨w, ts, hw⟩ := tokens_cons_nonws t b hb'
          have hIH := tokens_collapseD (b :: t)
          rw [hw] at hIH
          obtain ⟨rest2, hhead2⟩ := collapse_cons_head dotChar '.' w b
          have hshape : tokens ((if dotChar b then '.' else b) :: rest)
              = ((if dotChar b then '.' else b) :: rest2)
                :: (ts.map (collapse dotChar '.')) := by
            rw [show ((if dotChar b then '.' else b) :: rest)
                = collapse dotChar '.' (b :: t) from hhead.symm]
            rw [hIH, List.map_cons, hhead2]
          rw [hhead]
          rw [tokens_cons_merge _ _ rest _ _ hz hwd hshape]
          rw [tokens_cons_merge a b t (b :: w) ts ha' hb' hw]
          rw [List.map_cons]
          rw [show collapse dotChar '.' (a :: b :: w)
              = (if dotChar a then '.' else a) :: collapse dotChar '.' (b :: w) by
            rw [collapse_two, if_neg hab]]
          rw [hhead2]

theorem tokens_normalize (s : Str) :
    tokens (normalize_text s) = (tokens s).map (collapse dotChar '.') := by
  rw [normalize_text, tokens_strip, tokens_collapseD, tokens_collapseW]

theorem tokens_joinSp : ∀ L : List Str, tokens (joinSp L) = L.flatMap tokens
  | [] => rfl
  | [x] => by simp [joinSp]
  | x :: y :: xs => by
    show tokens (x ++ ' ' :: joinSp (y :: xs)) = _
    rw [tokens_append_space, tokens_joinSp (y :: xs)]
    simp

theorem appendLast_flat : ∀ (L : List Str) (l : Str), L ≠ [] →
    (appendLast l L).flatMap tokens = L.flatMap tokens ++ tokens l
  | [], _, h => absurd rfl h
  | [x], l, _ => by simp [appendLast, tokens_append_space]
  | x :: y :: xs, l, _ => by
    show (x :: appendLast l (y :: xs)).flatMap tokens = _
    rw [List.flatMap_cons, appendLast_flat (y :: xs) l (by simp), List.flatMap_cons]
    simp

theorem appendLast_ne : ∀ (L : List Str) (l : Str), L ≠ [] → appendLast l L ≠ []
  | [], _, h => absurd rfl h
  | [_], l, _ => by simp [appendLast]
  | _ :: _ :: _, l, _ => by simp [appendLast]

theorem segStep_blank (acc : SegAcc) (l : Str) (h : strip l = []) :
    segStep acc l = acc := by
  simp [segStep, h]

theorem segStep_doctor (acc : SegAcc) (l : Str) (h0 : ¬strip l = [])
    (hd : begins doctorTag (strip l) = true) :
    segStep acc l = ⟨acc.ds ++ [strip (delAll doctorTag (strip l))], acc.ps,
      acc.alls ++ [strip (delAll doctorTag (strip l))]⟩ := by
  simp [segStep, h0, hd]

theorem segStep_patient (acc : SegAcc) (l : Str) (h0 : ¬strip l = [])
    (hd : begins doctorTag (strip l) = false)
    (hp : begins patientTag (strip l) = true) :
    segStep acc l = ⟨acc.ds, acc.ps ++ [strip (delAll patientTag (strip l))],
      acc.alls ++ [strip (delAll patientTag (strip l))]⟩ := by
  simp [segStep, h0, hd, hp]

theorem segStep_untagged_d (acc : SegAcc) (l : Str) (h0 : ¬strip l = [])
    (hd : begins doctorTag (strip l) = false)
    (hp : begins patientTag (strip l) = false)
    (hc : acc.ds ≠ [] ∧ acc.ds.length > acc.ps.length) :
    segStep acc l = ⟨appendLast (strip l) acc.ds, acc.ps, acc.alls ++ [strip l]⟩ := by
  simp [segStep, h0, hd, hp, hc]

theorem segStep_untagged_p (acc : SegAcc) (l : Str) (h0 : ¬strip l = [])
    (hd : begins doctorTag (strip l) = false)
    (hp : begins patientTag (strip l) = false)
    (hc1 : ¬(acc.ds ≠ [] ∧ acc.ds.length > acc.ps.length)) (hc2 : acc.ps ≠ []) :
    segStep acc l = ⟨acc.ds, appendLast (strip l) acc.ps, acc.alls ++ [strip l]⟩ := by
  simp [segStep, h0, hd, hp, hc1, hc2]

theorem segStep_untagged_none (acc : SegAcc) (l : Str) (h0 : ¬strip l = [])
    (hd : begins doctorTag (strip l) = false)
    (hp : begins patientTag (strip l) = false)
    (hc1 : ¬(acc.ds ≠ [] ∧ acc.ds.length > acc.ps.length)) (hc2 : acc.ps = []) :
    segStep acc l = ⟨acc.ds, acc.ps, acc.alls ++ [strip l]⟩ := by
  have hds : acc.ds = [] := by
    by_contra hds
    refine hc1 ⟨hds, ?_⟩
    rw [hc2]
    simpa [List.length_pos] using hds
  simp [segStep, h0, hd, hp, hds, hc2]

theorem fold_alls_contents : ∀ (ls : List Str) (acc : SegAcc),
    (ls.foldl segStep acc).alls = acc.alls ++ lineContents ls
  | [], acc => by simp [lineContents]
  | l :: ls, acc => by
    rw [List.foldl_cons, fold_alls_contents ls (segStep acc l)]
    by_cases h0 : strip l = []
    · rw [segStep_blank acc l h0]
      simp [lineContents, h0]
    · by_cases hd : begins doctorTag (strip l) = true
      · rw [segStep_doctor acc l h0 hd]
        simp [lineContents, h0, hd]
      · by_cases hp : begins patientTag (strip l) = true
        · rw [segStep_patient acc l h0 (by simpa using hd) hp]
          simp [lineContents, h0, hd, hp]
        · have hcontents : lineContents (l :: ls) = strip l :: lineContents ls := by
            simp [lineContents, h0, hd, hp]
          rw [hcontents]
          by_cases hc1 : acc.ds ≠ [] ∧ acc.ds.length > acc.ps.length
          · rw [segStep_untagged_d acc l h0 (by simpa using hd) (by simpa using hp) hc1]
            simp
          · by_cases hc2 : acc.ps ≠ []
            · rw [segStep_untagged_p acc l h0 (by simpa using hd) (by simpa using hp)
                hc1 hc2]
              simp
            · rw [segStep_untagged_none acc l h0 (by simpa using hd) (by simpa using hp)
                hc1 (by simpa using hc2)]
              simp

theorem fold_tokens_sub : ∀ (ls : List Str) (acc : SegAcc),
    (∀ w ∈ acc.alls.flatMap tokens,
      w ∈ acc.ds.flatMap tokens ∨ w ∈ acc.ps.flatMap tokens) →
    (acc.ds ≠ [] ∨ acc.ps ≠ [] ∨ acc.alls = []) →
    (acc.ds = [] ∧ acc.ps = [] → firstTaggedLines ls = true) →
    ∀ w ∈ (ls.foldl segStep acc).alls.flatMap tokens,
      w ∈ (ls.foldl segStep acc).ds.flatMap tokens
      ∨ w ∈ (ls.foldl segStep acc).ps.flatMap tokens
  | [], _, h1, _, _ => h1
  | l :: ls, acc, h1, h2, h3 => by
    rw [List.foldl_cons]
    by_cases h0 : strip l = []
    · rw [segStep_blank acc l h0]
      refine fold_tokens_sub ls acc h1 h2 (fun h => ?_)
      have := h3 h
      simpa [firstTaggedLines, h0] using this
    · by_cases hd : begins doctorTag (strip l) = true
      · rw [segStep_doctor acc l h0 hd]
        refine fold_tokens_sub ls _ ?_ (by simp) (by simp)
        intro w hw
        simp only [List.flatMap_append] at hw ⊢
        rcases List.mem_append.mp hw with hw | hw
        · rcases h1 w hw with h | h
          · exact Or.inl (List.mem_append.mpr (Or.inl h))
          · exact Or.inr h
        · exact Or.inl (List.mem_append.mpr (Or.inr hw))
      · by_cases hp : begins patientTag (strip l) = true
        · rw [segStep_patient acc l h0 (by simpa using hd) hp]
          refine fold_tokens_sub ls _ ?_ (by simp) (by simp)
          intro w hw
          simp only [List.flatMap_append] at hw ⊢
          rcases List.mem_append.mp hw with hw | hw
          · rcases h1 w hw with h | h
            · exact Or.inl h
            · exact Or.inr (List.mem_append.mpr (Or.inl h))
          · exact Or.inr (List.mem_append.mpr (Or.inr hw))
        · by_cases hc1 : acc.ds ≠ [] ∧ acc.ds.length > acc.ps.length
          · rw [segStep_untagged_d acc l h0 (by simpa using hd) (by simpa using hp) hc1]
            refine fold_tokens_sub ls _ ?_ (Or.inl (appendLast_ne acc.ds (strip l) hc1.1))
              (fun h => absurd h.1 (appendLast_ne acc.ds (strip l) hc1.1))
            intro w hw
            simp only [List.flatMap_append] at hw
            show w ∈ (appendLast (strip l) acc.ds).flatMap tokens ∨ _
            rw [appendLast_flat acc.ds (strip l) hc1.1]
            rcases List.mem_append.mp hw with hw | hw
            · rcases h1 w hw with h | h
              · exact Or.inl (List.mem_append.mpr (Or.inl h))
              · exact Or.inr h
            · exact Or.inl (List.mem_append.mpr (Or.inr (by simpa using hw)))
          · by_cases hc2 : acc.ps ≠ []
            · rw [segStep_untagged_p acc l h0 (by simpa using hd) (by simpa using hp)
                hc1 hc2]
              refine fold_tokens_sub ls _ ?_ (Or.inr (Or.inl (appendLast_ne acc.ps
                (strip l) hc2))) (fun h => absurd h.2 (appendLast_ne acc.ps (strip l) hc2))
              intro w hw
              simp only [List.flatMap_append] at hw
              show w ∈ acc.ds.flatMap tokens
                ∨ w ∈ (appendLast (strip l) acc.ps).flatMap tokens
              rw [appendLast_flat acc.ps (strip l) hc2]
              rcases List.mem_append.mp hw with hw | hw
              · rcases h1 w hw with h | h
                · exact Or.inl h
                · exact Or.inr (List.mem_append.mpr (Or.inl h))
              · exact Or.inr (List.mem_append.mpr (Or.inr (by simpa using hw)))
            · have hps : acc.ps = [] := by simpa using hc2
              have hds : acc.ds = [] := by
                by_contra hds
                exact hc1 ⟨hds, by
                  rw [hps]
                  simpa [List.length_pos] using hds⟩
              have hft := h3 ⟨hds, hps⟩
              have hor : (begins doctorTag (strip l)
                  || begins patientTag (strip l)) = true := by
                simpa [firstTaggedLines, h0] using hft
              rcases Bool.or_eq_true_iff.mp hor with h | h
              · exact absurd h hd
              · exact absurd h hp

/-- Tokens of the full text are the dot-collapsed tokens of the accumulated line
contents. -/
theorem full_text_contents (text : Str) :
    (segment_conversation text).full_text
      = normalize_text (joinSp (lineContents (splitNl text))) := by
  show normalize_text (joinSp ((splitNl text).foldl segStep ⟨[], [], []⟩).alls) = _
  rw [fold_alls_contents (splitNl text) ⟨[], [], []⟩]
  rfl

/-- C3 as amended: `full_text` is the normalisation of the per-line contents joined in
source order, and — provided the first non-blank line carries a speaker tag — every token
of `full_text` is a token of `doctor_text` or of `patient_text`. -/
theorem c3_segmentation_token_containment (text : Str) :
    (segment_conversation text).full_text
      = normalize_text (joinSp (lineContents (splitNl text)))
    ∧ (firstTagged text = true →
       ∀ w ∈ tokens (segment_conversation text).full_text,
         w ∈ tokens (segment_conversation text).doctor_text
         ∨ w ∈ tokens (segment_conversation text).patient_text) := by
  refine ⟨full_text_contents text, fun hp w hw => ?_⟩
  have hw' : w ∈ tokens (normalize_text
      (joinSp ((splitNl text).foldl segStep ⟨[], [], []⟩).alls)) := hw
  rw [tokens_normalize, tokens_joinSp] at hw'
  obtain ⟨u, hu, hfu⟩ := List.mem_map.mp hw'
  have hsub := fold_tokens_sub (splitNl text) ⟨[], [], []⟩ (by simp) (by simp [SegAcc.alls])
    (fun _ => hp) u hu
  rcases hsub with h | h
  · left
    show w ∈ tokens (normalize_text
      (joinSp ((splitNl text).foldl segStep ⟨[], [], []⟩).ds))
    rw [tokens_normalize, tokens_joinSp]
    exact List.mem_map.mpr ⟨u, h, hfu⟩
  · right
    show w ∈ tokens (normalize_text
      (joinSp ((splitNl text).foldl segStep ⟨[], [], []⟩).ps))
    rw [tokens_normalize, tokens_joinSp]
    exact List.mem_map.mpr ⟨u, h, hfu⟩

/-- Counterexample to C3 as stated: for the transcript consisting of the single untagged
line `hello`, the token `hello` appears in `full_text` but in neither `doctor_text` nor
`patient_text` — segmentation drops untagged lines that precede every tagged line from
both speaker texts. -/
theorem c3_counterexample :
    lit ("hello") ∈ tokens (segment_conversation transcriptC3).full_text
    ∧ lit ("hello") ∉ tokens (segment_conversation transcriptC3).doctor_text
    ∧ lit ("hello") ∉ tokens (segment_conversation transcriptC3).patient_text := by
  refine ⟨?_, ?_, ?_⟩ <;> decide

/-- Witness for C3: on a concrete transcript whose first line is tagged, the token `stuff`
of `full_text` is found among the speaker texts. -/
theorem c3_segmentation_token_containment_witness :
    firstTagged transcriptC2 = true
    ∧ lit ("stuff") ∈ tokens (segment_conversation transcriptC2).full_text
    ∧ (lit ("stuff") ∈ tokens (segment_conversation transcriptC2).doctor_text
       ∨ lit ("stuff") ∈ tokens (segment_conversation transcriptC2).patient_text) :=
  ⟨by decide, by decide,
    (c3_segmentation_token_containment transcriptC2).2 (by decide) (lit ("stuff"))
      (by decide)⟩

theorem appendLast_eq : ∀ (L : List Str) (l : Str), L ≠ [] →
    appendLast l L = L.dropLast ++ [L.getLastD [] ++ ' ' :: l]
  | [], _, h => absurd rfl h
  | [x], l, _ => by simp [appendLast]
  | x :: y :: xs, l, _ => by
    show x :: appendLast l (y :: xs) = _
    rw [appendLast_eq (y :: xs) l (by simp)]
    simp [List.dropLast, List.getLastD]

/-- C2 as amended: an unprefixed non-blank line is appended (with a separating space) to
the doctor's current utterance exactly when the doctor has STRICTLY more completed
utterances than the patient; otherwise to the patient's current utterance when the patient
has at least one; otherwise (no patient utterance and no doctor surplus) to neither
speaker's text; in every case the stripped line joins `all_lines`. -/
theorem c2_untagged_continuation (acc : SegAcc) (l : Str)
    (h0 : strip l ≠ [])
    (hd : begins doctorTag (strip l) = false)
    (hp : begins patientTag (strip l) = false) :
    segStep acc l =
      if acc.ps.length < acc.ds.length then
        ⟨acc.ds.dropLast ++ [acc.ds.getLastD [] ++ ' ' :: strip l], acc.ps,
          acc.alls ++ [strip l]⟩
      else if acc.ps ≠ [] then
        ⟨acc.ds, acc.ps.dropLast ++ [acc.ps.getLastD [] ++ ' ' :: strip l],
          acc.alls ++ [strip l]⟩
      else ⟨acc.ds, acc.ps, acc.alls ++ [strip l]⟩ := by
  by_cases hc : acc.ps.length < acc.ds.length
  · rw [if_pos hc]
    have hds : acc.ds ≠ [] := by
      intro h
      rw [h] at hc
      simp at hc
    rw [segStep_untagged_d acc l h0 hd hp ⟨hds, hc⟩, appendLast_eq acc.ds (strip l) hds]
  · rw [if_neg hc]
    by_cases hc2 : acc.ps ≠ []
    · rw [if_pos hc2, segStep_untagged_p acc l h0 hd hp (fun hcc => hc hcc.2) hc2,
        appendLast_eq acc.ps (strip l) hc2]
    · rw [if_neg hc2, segStep_untagged_none acc l h0 hd hp (fun hcc => hc hcc.2)
        (by simpa using hc2)]

/-- Counterexample to C2 as stated: after `Doctor: hi there friend` and
`Patient: hello doc` the utterance counts tie at one each, so the claim (tie goes to the
doctor when doctor-count ≥ patient-count) predicts the untagged third line continues the
doctor; the code appends it to the patient. -/
theorem c2_counterexample :
    (segment_conversation transcriptC2).patient_text = lit ("hello doc and more stuff")
    ∧ (segment_conversation transcriptC2).doctor_text
        ≠ lit ("hi there friend and more stuff")
    ∧ (segment_conversation transcriptC2).doctor_text = lit ("hi there friend") := by
  refine ⟨?_, ?_, ?_⟩ <;> decide

/-- Witness for C2's amended rule at a concrete accumulator with tied utterance counts:
the continuation goes to the patient. -/
theorem c2_untagged_continuation_witness :
    segStep ⟨[lit ("hi")], [lit ("hello")], [lit ("hi"), lit ("hello")]⟩
        (lit ("more text"))
      = ⟨[lit ("hi")], [lit ("hello more text")],
          [lit ("hi"), lit ("hello"), lit ("more text")]⟩ := by
  rw [c2_untagged_continuation ⟨[lit ("hi")], [lit ("hello")], [lit ("hi"), lit ("hello")]⟩
    (lit ("more text")) (by decide) (by decide) (by decide)]
  decide

/-- Counterexample to C1 as stated: on the given transcript the classifier does NOT return
(Anxious, Seeking reassurance) — the keyword `ache` occurs inside `headache`, so the
symptom-reporting count ties the reassurance-seeking count instead of being exceeded by
it, and the tie-break picks `Reporting symptoms`. -/
theorem c1_counterexample :
    analyze_sentiment_intent none (segment_conversation transcriptC1).patient_text
      ≠ (lit ("Anxious"), lit ("Seeking reassurance")) := by
  decide

/-- C1 as amended: with external ML services unavailable, the transcript
`Doctor: How are you feeling? / Patient: I have fever and a bad headache, I'm worried
it's serious.` classifies as Sentiment = Anxious and Intent = Reporting symptoms: the
symptom-reporting count (via `ache` inside `headache`) and the reassurance-seeking count
(via `worried`) are both 1, and the tie is broken in favour of the first-declared
category. -/
theorem c1_fever_headache_transcript :
    analyze_sentiment_intent none (segment_conversation transcriptC1).patient_text
      = (lit ("Anxious"), lit ("Reporting symptoms"))
    ∧ SYMPTOM_REPORTING_KEYWORDS.countP
        (fun k => occurs k (toLowerStr (segment_conversation transcriptC1).patient_text))
        = 1
    ∧ REASSURANCE_SEEKING_KEYWORDS.countP
        (fun k => occurs k (toLowerStr (segment_conversation transcriptC1).patient_text))
        = 1
    ∧ RECOVERY_CONFIRMING_KEYWORDS.countP
        (fun k => occurs k (toLowerStr (segment_conversation transcriptC1).patient_text))
        = 0 := by
  refine ⟨?_, ?_, ?_, ?_⟩ <;> decide

theorem sentiment_rb_mem (t : Str) :
    analyze_sentiment_rule_based t ∈ SENTIMENT_CATEGORIES := by
  simp only [analyze_sentiment_rule_based]
  split
  · simp [SENTIMENT_CATEGORIES]
  · split <;> simp [SENTIMENT_CATEGORIES]

theorem sentiment_tr_mem (svc : Option PolarityResult) (t : Str) :
    analyze_sentiment_transformers svc t ∈ SENTIMENT_CATEGORIES := by
  cases svc with
  | none => exact sentiment_rb_mem t
  | some r =>
    simp only [analyze_sentiment_transformers]
    split
    · simp [SENTIMENT_CATEGORIES]
    · split <;> simp [SENTIMENT_CATEGORIES]

theorem intent_rb_mem (t : Str) : analyze_intent_rule_based t ∈ INTENT_CATEGORIES := by
  simp only [analyze_intent_rule_based]
  split <;> try split
  all_goals try split
  all_goals simp [INTENT_CATEGORIES]

/-- C8: for every patient text and every outcome of the external polarity model, the
classifier returns exactly one sentiment from the three-value enumeration and exactly one
intent from the five-value enumeration, and the empty patient text yields exactly
(Neutral, Describing condition). -/
theorem c8_classifier_totality (svc : Option PolarityResult) (pt : Str) :
    (analyze_sentiment_intent svc pt).1 ∈ SENTIMENT_CATEGORIES
    ∧ (analyze_sentiment_intent svc pt).2 ∈ INTENT_CATEGORIES
    ∧ (pt = [] → analyze_sentiment_intent svc pt
        = (lit ("Neutral"), lit ("Describing condition"))) := by
  unfold analyze_sentiment_intent
  by_cases h : pt = []
  · rw [if_pos h]
    refine ⟨by decide, by decide, fun _ => rfl⟩
  · rw [if_neg h]
    exact ⟨sentiment_tr_mem svc pt, intent_rb_mem pt, fun hc => absurd hc h⟩

/-- Witness for C8 at the empty patient text: both memberships hold and the default pair
is returned. -/
theorem c8_classifier_totality_witness :
    (analyze_sentiment_intent none []).1 ∈ SENTIMENT_CATEGORIES
    ∧ (analyze_sentiment_intent none []).2 ∈ INTENT_CATEGORIES
    ∧ analyze_sentiment_intent none [] = (lit ("Neutral"), lit ("Describing condition")) :=
  ⟨(c8_classifier_totality none []).1, (c8_classifier_totality none []).2.1,
    (c8_classifier_totality none []).2.2 rfl⟩

/-- C10: for every text in which no fragment obtained by splitting on `.`, `!`, `?` is
longer than 20 characters after trimming (the empty string included), and for every
sentence budget, the extractive fallback returns the one-character string `.` — a lone
period, never the empty string. -/
theorem c10_short_text_returns_dot (text : Str) (K : Nat)
    (h : ∀ s ∈ (splitPunct text).map strip, s.length ≤ 20) :
    summarize_simple text K = ['.'] ∧ summarize_simple text K ≠ [] := by
  have hs : sentencesOf text = [] := by
    rw [sentencesOf]
    rw [List.filter_eq_nil_iff]
    intro a ha
    have := h a ha
    simp only [decide_eq_true_eq]
    omega
  unfold summarize_simple
  rw [hs]
  refine ⟨?_, ?_⟩ <;> simp [joinDotSp]

/-- Witness for C10 on the concrete text `hi. yo` (two short fragments): the hypothesis
holds and summary is the lone period. -/
theorem c10_short_text_returns_dot_witness :
    (∀ s ∈ (splitPunct (lit ("hi. yo"))).map strip, s.length ≤ 20)
    ∧ summarize_simple (lit ("hi. yo")) 3 = ['.']
    ∧ summarize_simple (lit ("hi. yo")) 3 ≠ [] :=
  ⟨by decide, (c10_short_text_returns_dot (lit ("hi. yo")) 3 (by decide)).1,
    (c10_short_text_returns_dot (lit ("hi. yo")) 3 (by decide)).2⟩

theorem foldl_twenty (q : α → Bool) :
    ∀ (L : List α) (b : Nat),
      L.foldl (fun sc k => if q k then sc + 20 else sc) b = b + 20 * L.countP q
  | [], b => by simp
  | x :: xs, b => by
    simp only [List.foldl_cons, List.countP_cons]
    by_cases hx : q x = true
    · rw [if_pos hx, foldl_twenty q xs (b + 20), if_pos hx]
      ring
    · rw [if_neg hx, foldl_twenty q xs b, if_neg hx]
      ring

theorem scoreSentence_eq (n i : Nat) (s : Str) : scoreSentence n i s = scoreSpec n i s := by
  simp only [scoreSentence, scoreSpec, countMedKw]
  rw [foldl_twenty]
  split <;> omega

theorem insDesc_perm (key : α → Nat) (x : α) : ∀ l : List α, List.Perm (insDesc key x l) (x :: l)
  | [] => List.Perm.refl _
  | y :: ys => by
    simp only [insDesc]
    split
    · exact ((insDesc_perm key x ys).cons y).trans (List.Perm.swap x y ys)
    · exact List.Perm.refl _

/-- The stable sort used by the summariser and the keyword ranker is a permutation. -/
theorem sortDesc_perm (key : α → Nat) (l : List α) : List.Perm (sortDesc key l) l := by
  suffices h : ∀ (m acc : List α),
      List.Perm (m.foldl (fun a x => insDesc key x a) acc) (m ++ acc) by
    simpa using h l []
  intro m
  induction m with
  | nil => intro acc; simp
  | cons x xs ih =>
    intro acc
    simp only [List.foldl_cons]
    refine (ih (insDesc key x acc)).trans ?_
    refine (List.Perm.append_left xs (insDesc_perm key x acc)).trans ?_
    exact List.perm_middle

theorem insDesc_sorted (key : α → Nat) (x : α) :
    ∀ l : List α, l.Sorted (fun a b => key b ≤ key a) →
      (insDesc key x l).Sorted (fun a b => key b ≤ key a)
  | [], _ => by simp [insDesc]
  | y :: ys, hs => by
    simp only [insDesc]
    split
    · rename_i hxy
      rw [List.sorted_cons]
      refine ⟨fun z hz => ?_, insDesc_sorted key x ys (List.sorted_cons.mp hs).2⟩
      rcases List.mem_cons.mp ((insDesc_perm key x ys).mem_iff.mp hz) with hz' | hz'
      · subst hz'
        exact hxy
      · exact (List.sorted_cons.mp hs).1 z hz'
    · rename_i hxy
      rw [List.sorted_cons]
      refine ⟨fun z hz => ?_, hs⟩
      rcases List.mem_cons.mp hz with hz' | hz'
      · subst hz'
        omega
      · have := (List.sorted_cons.mp hs).1 z hz'
        omega

/-- The stable sort is sorted descending by its key. -/
theorem sortDesc_sorted (key : α → Nat) (l : List α) :
    (sortDesc key l).Sorted (fun a b => key b ≤ key a) := by
  suffices h : ∀ (m acc : List α), acc.Sorted (fun a b => key b ≤ key a) →
      (m.foldl (fun a x => insDesc key x a) acc).Sorted (fun a b => key b ≤ key a) by
    exact h l [] (by simp)
  intro m
  induction m with
  | nil => intro acc hacc; exact hacc
  | cons x xs ih =>
    intro acc hacc
    simp only [List.foldl_cons]
    exact ih (insDesc key x acc) (insDesc_sorted key x acc hacc)

/-- C4 as amended: for texts with more than `K` qualifying sentences, `summarize_simple`
computes exactly the specification-side summary: each sentence scored as length + 20 per
distinct medical keyword present + 10 first/last bonus, the top `K` selected under the
stable descending order, and every sentence string-equal to a selected one kept in
original order, joined with `. ` and a trailing period. -/
theorem c4_summarizer_equivalence (text : Str) (K : Nat)
    (h : K < (sentencesOf text).length) :
    summarize_simple text K = summarizeSpec text K := by
  simp only [summarize_simple, summarizeSpec, topSelected]
  rw [if_neg (by omega)]
  have hmap : (sentencesOf text).enum.map
      (fun p => (scoreSentence (sentencesOf text).length p.1 p.2, p.2))
      = (sentencesOf text).enum.map
        (fun p => (scoreSpec (sentencesOf text).length p.1 p.2, p.2)) := by
    apply List.map_congr_left
    intro p _
    rw [scoreSentence_eq]
  rw [hmap]

/-- Counterexample to C4 as stated: on the four-sentence text `X. Y. X. Z.` (where the
second copy of `X` is not among the top three by score) the code returns all FOUR
sentences — the filter step keeps every sentence string-equal to a selected one — while
the claim's top-3-then-reorder description predicts `X. Y. Z.`. -/
theorem c4_counterexample :
    summarize_simple textC4 3 = textC4 ++ ['.']
    ∧ summarize_simple textC4 3 ≠ joinDotSp [sentX, sentY, sentZ] ++ ['.']
    ∧ (sentencesOf textC4).length = 4 := by
  refine ⟨?_, ?_, ?_⟩ <;> decide

/-- Witness for C4's amended equivalence at the concrete four-sentence text. -/
theorem c4_summarizer_equivalence_witness :
    3 < (sentencesOf textC4).length
    ∧ summarize_simple textC4 3 = summarizeSpec textC4 3 :=
  ⟨by decide, c4_summarizer_equivalence textC4 3 (by decide)⟩

theorem contains_iff (l : List Str) (a : Str) : l.contains a = true ↔ a ∈ l := by
  simp

theorem dedupFirstAux_cons_mem (seen : List Str) (x : Str) (xs : List Str)
    (hx : seen.contains x = true) :
    dedupFirstAux seen (x :: xs) = dedupFirstAux seen xs := by
  show (if seen.contains x = true then dedupFirstAux seen xs
    else x :: dedupFirstAux (x :: seen) xs) = dedupFirstAux seen xs
  rw [if_pos hx]

theorem dedupFirstAux_cons_new (seen : List Str) (x : Str) (xs : List Str)
    (hx : ¬seen.contains x = true) :
    dedupFirstAux seen (x :: xs) = x :: dedupFirstAux (x :: seen) xs := by
  show (if seen.contains x = true then dedupFirstAux seen xs
    else x :: dedupFirstAux (x :: seen) xs) = x :: dedupFirstAux (x :: seen) xs
  rw [if_neg hx]

theorem mem_dedupFirstAux : ∀ (l seen : List Str) (a : Str),
    a ∈ dedupFirstAux seen l ↔ a ∈ l ∧ a ∉ seen
  | [], seen, a => by simp [dedupFirstAux]
  | x :: xs, seen, a => by
    by_cases hx : seen.contains x = true
    · have hxs : x ∈ seen := (contains_iff seen x).mp hx
      rw [dedupFirstAux_cons_mem seen x xs hx]
      rw [mem_dedupFirstAux xs seen a]
      constructor
      · rintro ⟨h1, h2⟩
        exact ⟨by simp [h1], h2⟩
      · rintro ⟨h1, h2⟩
        rcases List.mem_cons.mp h1 with h | h
        · subst h
          exact absurd hxs h2
        · exact ⟨h, h2⟩
    · have hxs : x ∉ seen := fun hm => hx ((contains_iff seen x).mpr hm)
      rw [dedupFirstAux_cons_new seen x xs hx]
      constructor
      · intro hm
        rcases List.mem_cons.mp hm with h | h
        · subst h
          exact ⟨by simp, hxs⟩
        · have hrec := (mem_dedupFirstAux xs (x :: seen) a).mp h
          exact ⟨by simp [hrec.1], fun hs => hrec.2 (by simp [hs])⟩
      · rintro ⟨h1, h2⟩
        rcases List.mem_cons.mp h1 with h | h
        · subst h
          exact List.mem_cons_self _ _
        · by_cases hax : a = x
          · subst hax
            exact List.mem_cons_self _ _
          · refine List.mem_cons.mpr (Or.inr ((mem_dedupFirstAux xs (x :: seen) a).mpr
              ⟨h, fun hm => ?_⟩))
            rcases List.mem_cons.mp hm with h' | h'
            · exact hax h'
            · exact h2 h'

theorem nodup_dedupFirstAux : ∀ (l seen : List Str), (dedupFirstAux seen l).Nodup
  | [], _ => List.nodup_nil
  | x :: xs, seen => by
    by_cases hx : seen.contains x = true
    · rw [dedupFirstAux_cons_mem seen x xs hx]
      exact nodup_dedupFirstAux xs seen
    · rw [dedupFirstAux_cons_new seen x xs hx]
      refine List.nodup_cons.mpr ⟨fun hm => ?_, nodup_dedupFirstAux xs (x :: seen)⟩
      exact ((mem_dedupFirstAux xs (x :: seen) x).mp hm).2 (by simp)

theorem mem_dedupFirst (l : List Str) (a : Str) : a ∈ dedupFirst l ↔ a ∈ l := by
  rw [dedupFirst, mem_dedupFirstAux]
  simp

theorem nodup_dedupFirst (l : List Str) : (dedupFirst l).Nodup := nodup_dedupFirstAux l []

theorem mergeCategory_nodup (reorder : List Str → List Str) (ner kw : List Str) :
    (mergeCategory reorder ner kw).Nodup := nodup_dedupFirst _

theorem mergeCategory_clean (reorder : List Str → List Str) (ner kw : List Str) :
    ∀ s ∈ mergeCategory reorder ner kw, s ≠ [] ∧ s.any (fun c => !wsChar c) = true := by
  intro s hs
  rw [mergeCategory, mem_dedupFirst] at hs
  obtain ⟨hmem, hcond⟩ := List.mem_filter.mp hs
  obtain ⟨x, _, hsx⟩ := List.mem_map.mp hmem
  have hne : s ≠ [] := by
    intro h
    rw [h] at hcond
    simp at hcond
  refine ⟨hne, ?_⟩
  cases hst : s with
  | nil => exact absurd hst hne
  | cons c r =>
    have hc : wsChar c = false := by
      apply strip_head_not_ws x c r
      rw [hsx, hst]
    simp [hc]

/-- C6: for every set-iteration order, every model-entity bag and every input text, each
category list of the entity extractor's output contains no duplicate strings and no empty
or whitespace-only strings. -/
theorem c6_entity_bag_clean (reorder : List Str → List Str) (nerBag : EntityBag)
    (text : Str) :
    ((extract_medical_entities reorder nerBag text).Symptoms.Nodup
      ∧ ∀ s ∈ (extract_medical_entities reorder nerBag text).Symptoms,
          s ≠ [] ∧ s.any (fun c => !wsChar c) = true)
    ∧ ((extract_medical_entities reorder nerBag text).Diagnosis.Nodup
      ∧ ∀ s ∈ (extract_medical_entities reorder nerBag text).Diagnosis,
          s ≠ [] ∧ s.any (fun c => !wsChar c) = true)
    ∧ ((extract_medical_entities reorder nerBag text).Treatment.Nodup
      ∧ ∀ s ∈ (extract_medical_entities reorder nerBag text).Treatment,
          s ≠ [] ∧ s.any (fun c => !wsChar c) = true)
    ∧ ((extract_medical_entities reorder nerBag text).Prognosis.Nodup
      ∧ ∀ s ∈ (extract_medical_entities reorder nerBag text).Prognosis,
          s ≠ [] ∧ s.any (fun c => !wsChar c) = true) :=
  ⟨⟨mergeCategory_nodup _ _ _, mergeCategory_clean _ _ _⟩,
   ⟨mergeCategory_nodup _ _ _, mergeCategory_clean _ _ _⟩,
   ⟨mergeCategory_nodup _ _ _, mergeCategory_clean _ _ _⟩,
   ⟨mergeCategory_nodup _ _ _, mergeCategory_clean _ _ _⟩⟩

theorem setSemantics_revD : SetSemantics revD := by
  intro xs
  refine ⟨nodup_dedupFirst _, fun a => ?_⟩
  rw [revD, mem_dedupFirst, List.mem_reverse]

theorem setSemantics_dedupFirst : SetSemantics dedupFirst := fun xs =>
  ⟨nodup_dedupFirst xs, fun a => mem_dedupFirst xs a⟩

/-- Counterexample to C5 as stated: under the legitimate set-iteration order `revD`
(reversed first-seen order — duplicate-free with exactly the input's elements, as
`SetSemantics revD` certifies), the Symptoms category comes out as `[beta, alpha]`, not
the first-seen order `[alpha, beta]` demanded by the claim: Python's `list(set(...))`
does not preserve first-seen order. -/
theorem c5_counterexample :
    SetSemantics revD
    ∧ (extract_medical_entities revD nerBagC5 []).Symptoms
        ≠ mergeFirstSeen nerBagC5.Symptoms (extract_by_keywords [] SYMPTOM_KEYWORDS)
    ∧ (extract_medical_entities revD nerBagC5 []).Symptoms = [lit ("beta"), lit ("alpha")]
    ∧ mergeFirstSeen nerBagC5.Symptoms (extract_by_keywords [] SYMPTOM_KEYWORDS)
        = [lit ("alpha"), lit ("beta")] :=
  ⟨setSemantics_revD, by decide, by decide, by decide⟩

theorem mergeCategory_mem_firstSeen (reorder : List Str → List Str)
    (hr : SetSemantics reorder) (ner kw : List Str) (s : Str) :
    s ∈ mergeCategory reorder ner kw ↔ s ∈ mergeFirstSeen ner kw := by
  rw [mergeCategory, mergeFirstSeen, mem_dedupFirst, mem_dedupFirst]
  simp only [List.mem_filter, List.mem_map]
  constructor
  · rintro ⟨⟨x, hx, rfl⟩, hcond⟩
    exact ⟨⟨x, ((hr _).2 x).mp hx, rfl⟩, hcond⟩
  · rintro ⟨⟨x, hx, rfl⟩, hcond⟩
    exact ⟨⟨x, ((hr _).2 x).mpr hx, rfl⟩, hcond⟩

/-- C5 as amended: for every valid set-iteration order, each category of the extractor's
output is duplicate-free and contains exactly the strings of the specification's
first-seen merge (concatenate model results with keyword-window results, trim,
drop empties, deduplicate) — but in the unspecified set-iteration order rather than
first-seen order. -/
theorem c5_entity_merge (reorder : List Str → List Str) (hr : SetSemantics reorder)
    (nerBag : EntityBag) (text : Str) :
    ((extract_medical_entities reorder nerBag text).Symptoms.Nodup
      ∧ ∀ s, s ∈ (extract_medical_entities reorder nerBag text).Symptoms
          ↔ s ∈ mergeFirstSeen nerBag.Symptoms (extract_by_keywords text SYMPTOM_KEYWORDS))
    ∧ ((extract_medical_entities reorder nerBag text).Diagnosis.Nodup
      ∧ ∀ s, s ∈ (extract_medical_entities reorder nerBag text).Diagnosis
          ↔ s ∈ mergeFirstSeen nerBag.Diagnosis (extract_by_keywords text DIAGNOSIS_KEYWORDS))
    ∧ ((extract_medical_entities reorder nerBag text).Treatment.Nodup
      ∧ ∀ s, s ∈ (extract_medical_entities reorder nerBag text).Treatment
          ↔ s ∈ mergeFirstSeen nerBag.Treatment (extract_by_keywords text TREATMENT_KEYWORDS))
    ∧ ((extract_medical_entities reorder nerBag text).Prognosis.Nodup
      ∧ ∀ s, s ∈ (extract_medical_entities reorder nerBag text).Prognosis
          ↔ s ∈ mergeFirstSeen nerBag.Prognosis (extract_by_keywords text PROGNOSIS_KEYWORDS)) :=
  ⟨⟨mergeCategory_nodup _ _ _, fun s => mergeCategory_mem_firstSeen reorder hr _ _ s⟩,
   ⟨mergeCategory_nodup _ _ _, fun s => mergeCategory_mem_firstSeen reorder hr _ _ s⟩,
   ⟨mergeCategory_nodup _ _ _, fun s => mergeCategory_mem_firstSeen reorder hr _ _ s⟩,
   ⟨mergeCategory_nodup _ _ _, fun s => mergeCategory_mem_firstSeen reorder hr _ _ s⟩⟩

/-- Witness for C5's amended merge property with the keep-first set order on the concrete
bag: membership agrees with the first-seen merge. -/
theorem c5_entity_merge_witness :
    SetSemantics dedupFirst
    ∧ (lit ("alpha") ∈ (extract_medical_entities dedupFirst nerBagC5 []).Symptoms
        ↔ lit ("alpha") ∈ mergeFirstSeen nerBagC5.Symptoms
            (extract_by_keywords [] SYMPTOM_KEYWORDS)) :=
  ⟨setSemantics_dedupFirst,
    (c5_entity_merge dedupFirst setSemantics_dedupFirst nerBagC5 []).1.2 (lit ("alpha"))⟩

theorem resultLoop_length : ∀ (l res : List Str) (n : Nat), res.length < n →
    (resultLoop n l res).length ≤ n
  | [], _, _, h => by
    simp only [resultLoop]
    omega
  | kw :: rest, res, n, h => by
    simp only [resultLoop]
    by_cases hm : res.contains kw = true
    · rw [if_pos hm]
      exact resultLoop_length rest res n h
    · rw [if_neg (by simpa using hm)]
      by_cases hl : n ≤ (res ++ [kw]).length
      · rw [if_pos hl]
        simp only [List.length_append, List.length_cons, List.length_nil] at hl ⊢
        omega
      · rw [if_neg hl]
        refine resultLoop_length rest (res ++ [kw]) n ?_
        simp only [List.length_append, List.length_cons, List.length_nil] at hl ⊢
        omega

theorem resultLoop_subset : ∀ (l res : List Str) (n : Nat) (a : Str),
    a ∈ resultLoop n l res → a ∈ res ∨ a ∈ l
  | [], _, _, _, h => Or.inl h
  | kw :: rest, res, n, a, h => by
    simp only [resultLoop] at h
    by_cases hm : res.contains kw = true
    · rw [if_pos hm] at h
      rcases resultLoop_subset rest res n a h with h' | h'
      · exact Or.inl h'
      · exact Or.inr (by simp [h'])
    · rw [if_neg (by simpa using hm)] at h
      by_cases hl : n ≤ (res ++ [kw]).length
      · rw [if_pos hl] at h
        rcases List.mem_append.mp h with h' | h'
        · exact Or.inl h'
        · exact Or.inr (by simp at h'; simp [h'])
      · rw [if_neg hl] at h
        rcases resultLoop_subset rest (res ++ [kw]) n a h with h' | h'
        · rcases List.mem_append.mp h' with h'' | h''
          · exact Or.inl h''
          · exact Or.inr (by simp at h''; simp [h''])
        · exact Or.inr (by simp [h'])

/-- C7: for every pooled candidate list and every bound, the keyword extractor returns at
most `top_n` keywords, none of which is a stop word or shorter than three characters. -/
theorem c7_keyword_invariants (all_keywords : List Str) (top_n : Nat) :
    (extract_keywords all_keywords top_n).length ≤ top_n
    ∧ ∀ kw ∈ extract_keywords all_keywords top_n,
        kw ∉ STOP_WORDS ∧ 3 ≤ kw.length := by
  constructor
  · by_cases h0 : top_n = 0
    · subst h0
      simp [extract_keywords, resultLoop]
    · simp only [extract_keywords]
      exact resultLoop_length _ [] top_n (by simp; omega)
  · intro kw hkw
    simp only [extract_keywords] at hkw
    rcases resultLoop_subset _ [] top_n kw hkw with h | h
    · simp at h
    · obtain ⟨_, hcond⟩ := List.mem_filter.mp h
      rw [Bool.and_eq_true] at hcond
      refine ⟨fun hmem => ?_, ?_⟩
      · have hfalse := hcond.1
        rw [Bool.not_eq_true'] at hfalse
        have h2 := (contains_iff STOP_WORDS kw).mpr hmem
        rw [hfalse] at h2
        exact Bool.noConfusion h2
      · have := of_decide_eq_true hcond.2
        omega

/-- Witness for C6 at a concrete instantiation: the Symptoms list is duplicate-free and
its member `alpha` is non-empty and not whitespace-only. -/
theorem c6_entity_bag_clean_witness :
    (extract_medical_entities dedupFirst nerBagC5 []).Symptoms.Nodup
    ∧ (lit ("alpha") ≠ [] ∧ (lit ("alpha")).any (fun c => !wsChar c) = true) :=
  ⟨(c6_entity_bag_clean dedupFirst nerBagC5 []).1.1,
    (c6_entity_bag_clean dedupFirst nerBagC5 []).1.2 (lit ("alpha")) (by decide)⟩

/-- Witness for C7 at a concrete pooled list: the bound holds and the extracted keyword
`painkiller` is neither a stop word nor shorter than three characters. -/
theorem c7_keyword_invariants_witness :
    (extract_keywords [lit ("painkiller"), lit ("the")] 15).length ≤ 15
    ∧ (lit ("painkiller") ∉ STOP_WORDS ∧ 3 ≤ (lit ("painkiller")).length) :=
  ⟨(c7_keyword_invariants [lit ("painkiller"), lit ("the")] 15).1,
    (c7_keyword_invariants [lit ("painkiller"), lit ("the")] 15).2 (lit ("painkiller"))
      (by decide)⟩

end Swasthya
